import Mathlib

/-!
SMART_DIR_ORGANIZATION: dedup grouper, per-file routine, change monitor,
classification, tags and worker pool.

A shallow embedding of

* `cmd/deduplicate.go` (`findDuplicates`, `removeDuplicates`, the command itself),
* `internal/core/organizer.go` (`processFile`, the worker pool of `CategorizeFiles`),
* `cmd/monitor.go` (the `select` loop of `startMonitoring`),
* `pkg/ai/integration.go` (`ClassifyFile`, `validateCategory`, `fallbackClassification`),
* `cmd/tag.go` (`uniqueTags`),

together with the data model of `models/db.go`.

Modelling conventions.

* A Go `map[string]V` is an association list with at most one entry per key,
  kept in order of first insertion.  A `range` over the map visits the entries
  in that order (one of the orders Go may pick); results are stated through
  lookups and sums, which do not depend on the order.
* The `files` table is the list of its live rows (`deleted_at IS NULL`) in
  rowid order; gorm's soft delete takes a row out of that list.
* `int64` values are integers wrapped explicitly with `wrapInt64`.
* Calls that leave the repository (`os.Stat`, `os.Remove`, SQLite, the search
  index client, the classification API) are modelled by the state they read or
  change and by explicit outcome parameters, so that every failure the code
  tests for can occur.
* Strings are sequences of Unicode characters; the case table of the Go library
  outside ASCII is a parameter.
* Goroutines and channels are a transition system whose runs are the schedules
  of the goroutines.
-/

namespace SmartDir

/-! ## Data model (`models/db.go`) -/

/-- Row of the `files` table: `models.File`.  `ID` is the primary key of the
embedded `gorm.Model`. -/
structure File where
  ID : Nat
  Path : String
  Category : String
  Hash : String
  Tags : String
  Size : Int
  MimeType : String
deriving DecidableEq, Repr

/-! ## Go maps -/

/-- Value type of `map[string][]string`, as an association list. -/
abbrev GoMap := List (String × List String)

/-- The expression `m[key]`: the stored slice, or the nil slice for a missing key. -/
def mapGet : GoMap → String → List String
  | [], _ => []
  | (k, v) :: m, key => if k = key then v else mapGet m key

/-- Whether `key` is present: the `ok` of `_, ok := m[key]`. -/
def mapHas {α : Type} : List (String × α) → String → Bool
  | [], _ => false
  | (k, _) :: m, key => if k = key then true else mapHas m key

/-- The assignment `m[key] = val`. -/
def mapSet {α : Type} : List (String × α) → String → α → List (String × α)
  | [], key, val => [(key, val)]
  | (k, v) :: m, key, val =>
    if k = key then (k, val) :: m else (k, v) :: mapSet m key val

/-! ## Machine integers -/

/-- Two's complement wrap-around of `int64` arithmetic. -/
def wrapInt64 (x : Int) : Int := (x + 9223372036854775808) % 18446744073709551616 - 9223372036854775808

/-! ## SQLite `LIKE` -/

/-- ASCII case folding, the only folding `LIKE` does by default. -/
def asciiLower (c : Char) : Char :=
  if 'A' ≤ c ∧ c ≤ 'Z' then Char.ofNat (c.toNat + 32) else c

/-- The operator `s LIKE pat` of SQLite with its default settings: `%` matches
any run of characters, `_` matches one character, any other character matches
itself up to ASCII case, and there is no escape character. -/
def likeMatch : List Char → List Char → Bool
  | [], s => s.isEmpty
  | p :: ps, s =>
    if p = '%' then s.tails.any (fun t => likeMatch ps t)
    else
      match s with
      | [] => false
      | c :: cs => (p = '_' || asciiLower p = asciiLower c) && likeMatch ps cs

/-! ## The world the dedup commands act on -/

/-- The filesystem as seen by `os.Stat`, and the `files` table. -/
structure World where
  /-- The call `os.Stat(p)`: the size of the entry at `p`, or `none` when it fails. -/
  fs : String → Option Int
  /-- Live rows of the `files` table, in the order a scan returns them. -/
  db : List File

/-- The query `storage.DB.Where("path LIKE ?", rootPath+"%").Find(&files)`. -/
def loadByRoot (db : List File) (rootPath : String) : List File :=
  db.filter (fun f => likeMatch (rootPath ++ "%").toList f.Path.toList)

/-! ## `findDuplicates` (`cmd/deduplicate.go`, lines 78-106) -/

/-- The loop "Group files by hash" (lines 86-89). -/
def groupByHash (files : List File) : GoMap :=
  files.foldl (fun hashMap file => mapSet hashMap file.Hash (mapGet hashMap file.Hash ++ [file.Path])) []

/-- One iteration of the loop "Filter out non-duplicates" (lines 94-103). -/
def filterStep (stat : String → Option Int) (acc : GoMap × Int) (entry : String × List String) :
    GoMap × Int :=
  let hash := entry.1
  let paths := entry.2
  if paths.length > 1 then
    (mapSet acc.1 hash paths,
      match stat (paths.headD "") with
      | some size => wrapInt64 (acc.2 + wrapInt64 (size * ((paths.length : Int) - 1)))
      | none => acc.2)
  else acc

/-- The body of `findDuplicates` after the records are loaded (lines 85-105):
the map of duplicate groups and `totalSize`. -/
def findDuplicatesLoaded (stat : String → Option Int) (files : List File) : GoMap × Int :=
  (groupByHash files).foldl (filterStep stat) ([], 0)

/-- The function `findDuplicates(rootPath)`.  `queryErr` is `result.Error` of the query. -/
def findDuplicates (queryErr : Option String) (w : World) (rootPath : String) :
    Except String (GoMap × Int) :=
  match queryErr with
  | some e => .error ("database query failed: " ++ e)
  | none => .ok (findDuplicatesLoaded w.fs (loadByRoot w.db rootPath))

/-! ## `removeDuplicates` (`cmd/deduplicate.go`, lines 108-121) -/

/-- Outcomes of the calls `removeDuplicates` makes, by attempt number (the
number of `os.Remove` calls made before).  The code calls `os.Remove` without
looking at the path first, and `os.Remove` does not follow links while
`os.Stat` does, so the outcome of a removal is not tied to what `os.Stat`
answers for the path: a link whose target is gone fails `os.Stat` and can be
removed.  No field is constrained. -/
structure RemoveEnv where
  /-- Whether `os.Remove` number `k` returns nil. -/
  removeOk : Nat → Bool
  /-- What `os.Stat` answers on the other paths once removal number `k` has
  succeeded, given what it answered before: it changes where a path is a link
  to the removed entry. -/
  restat : Nat → (String → Option Int) → String → Option Int
  /-- Whether the `DELETE` after removal number `k` takes effect (its error is
  not looked at by the code). -/
  deleteOk : Nat → Bool

/-- One `os.Remove` attempt as recorded in the run's log. -/
structure Attempt where
  path : String
  removed : Bool
  recordDeleted : Bool
deriving DecidableEq, Repr

/-- Running state of `removeDuplicates`: the world, the counter `removed`, and
the log of attempts made so far. -/
structure RemoveState where
  w : World
  removed : Nat
  log : List Attempt

/-- The call `os.Remove(p)` followed, when it returns nil, by the record
deletion and `removed++` (lines 113-117).  After a removal `os.Stat(p)` fails;
a failed removal changes nothing. -/
def removeMember (env : RemoveEnv) (st : RemoveState) (p : String) : RemoveState :=
  let k := st.log.length
  if env.removeOk k then
    { w := { fs := fun q => if q = p then none else env.restat k st.w.fs q,
             db := if env.deleteOk k then st.w.db.filter (fun f => f.Path ≠ p) else st.w.db },
      removed := st.removed + 1,
      log := st.log ++ [⟨p, true, env.deleteOk k⟩] }
  else
    { st with log := st.log ++ [⟨p, false, false⟩] }

/-- The inner loop `for i := 1; i < len(paths); i++` of one group. -/
def removeGroup (env : RemoveEnv) (st : RemoveState) (entry : String × List String) : RemoveState :=
  (entry.2.drop 1).foldl (removeMember env) st

/-- The function `removeDuplicates(duplicates)` with its effect on the world. -/
def removeDuplicatesRun (env : RemoveEnv) (duplicates : GoMap) (w : World) : RemoveState :=
  duplicates.foldl (removeGroup env) { w := w, removed := 0, log := [] }

/-- The value `removeDuplicates(duplicates)` returns. -/
def removeDuplicates (env : RemoveEnv) (duplicates : GoMap) (w : World) : Nat :=
  (removeDuplicatesRun env duplicates w).removed

/-- The paths `removeDuplicates` tries to delete: every member but the first of every group. -/
def otherMembers (duplicates : GoMap) : List String :=
  duplicates.flatMap (fun entry => entry.2.drop 1)


/-! ## Reclaimable size -/

/-- What one returned group adds to `totalSize` (lines 98-101), before wrap-around:
nothing when `os.Stat` of its first path fails. -/
def groupReclaim (stat : String → Option Int) (entry : String × List String) : Int :=
  match stat (entry.2.headD "") with
  | some size => size * ((entry.2.length : Int) - 1)
  | none => 0

/-- Sum of `groupReclaim` over the returned groups. -/
def reclaimable (stat : String → Option Int) (groups : GoMap) : Int :=
  (groups.map (groupReclaim stat)).sum

/-- The formula of the specification: the sum over the groups of (size of the
first member) times (group size minus 1), for a given size of every member. -/
def reclaimableSpec (size : String → Int) (groups : GoMap) : Int :=
  (groups.map (fun entry => size (entry.2.headD "") * ((entry.2.length : Int) - 1))).sum

/-- The byte size recorded for a path in the loaded records. -/
def recordedSize (files : List File) (p : String) : Int :=
  match files.find? (fun f => f.Path = p) with
  | some f => f.Size
  | none => 0

/-- Records `a:h1, b:h1, c:h2`, ten bytes each. -/
def abcRecords : List File :=
  [⟨1, "a", "other", "h1", "", 10, ""⟩, ⟨2, "b", "other", "h1", "", 10, ""⟩,
   ⟨3, "c", "other", "h2", "", 10, ""⟩]

/-- A filesystem on which `os.Stat` fails for every path (the files are gone,
or their directory cannot be searched). -/
def statFails : String → Option Int := fun _ => none

/-! ## Reading the log of a `removeDuplicates` run -/

/-- Paths whose filesystem entry some attempt removed. -/
def removedPaths (log : List Attempt) : List String :=
  (log.filter (fun a => a.removed)).map (fun a => a.path)

/-- Paths whose records some attempt deleted from the table. -/
def deletedPaths (log : List Attempt) : List String :=
  (log.filter (fun a => a.recordDeleted)).map (fun a => a.path)

/-- An environment in which every removal and every record deletion goes
through, and no path is a link to another. -/
def allowAll : RemoveEnv :=
  { removeOk := fun _ => true, restat := fun _ fs => fs, deleteOk := fun _ => true }

/-- An environment in which the operating system refuses every removal. -/
def denyAll : RemoveEnv :=
  { removeOk := fun _ => false, restat := fun _ fs => fs, deleteOk := fun _ => true }

/-- The file `/r/p` recorded twice with the same hash, as after processing it twice. -/
def twiceWorld : World :=
  { fs := fun q => if q = "/r/p" then some 10 else none,
    db := [⟨1, "/r/p", "other", "h1", "", 10, ""⟩, ⟨2, "/r/p", "other", "h1", "", 10, ""⟩] }

/-- A file `/r/a` and a recorded link `/r/l` whose target is gone, so that
`os.Stat` fails on it; both records carry the same hash. -/
def danglingWorld : World :=
  { fs := fun q => if q = "/r/a" then some 10 else none,
    db := [⟨1, "/r/a", "other", "h1", "", 10, ""⟩, ⟨2, "/r/l", "other", "h1", "", 10, ""⟩] }

/-- Two files `/r/a` and `/r/b` with the same content, both recorded. -/
def pairWorld : World :=
  { fs := fun q => if q = "/r/a" ∨ q = "/r/b" then some 10 else none,
    db := [⟨1, "/r/a", "other", "h1", "", 10, ""⟩, ⟨2, "/r/b", "other", "h1", "", 10, ""⟩] }

/-- What a run has done so far, read off its log: the table lost the records
of the paths in `deletedPaths`, the counter is the number of successful
removals, and records are deleted only after a successful removal. -/
def RunInv (w₀ : World) (st : RemoveState) : Prop :=
  st.w.db = w₀.db.filter (fun f => decide (f.Path ∉ deletedPaths st.log)) ∧
  st.removed = (st.log.filter (fun a => a.removed)).length ∧
  (∀ a ∈ st.log, a.recordDeleted = true → a.removed = true)

/-- Every attempt in the log has the outcome the environment gives it:
attempt number `i` removes its path exactly when `os.Remove` number `i` returns
nil; its records are deleted exactly when, in addition, the `DELETE` number `i`
takes effect. -/
def LogInv (env : RemoveEnv) (log : List Attempt) : Prop :=
  ∀ (i : Nat) (a : Attempt), log[i]? = some a →
    a.removed = env.removeOk i ∧
    a.recordDeleted = (a.removed && env.deleteOk i)

/-! ## The per-file routine `processFile` (`internal/core/organizer.go`, lines 121-181) -/

/-- Document of the search index, `{id, path, category, hash, tags}`. -/
structure Doc where
  id : Nat
  path : String
  category : String
  hash : String
  tags : String
deriving DecidableEq, Repr

/-- The metadata store: the live rows of the `files` table and the primary key
the next insert gets. -/
structure Store where
  rows : List File
  nextID : Nat

/-- The two halves of the metadata sink. -/
structure Sink where
  store : Store
  index : List Doc

/-- Operations on the transaction `tx`. -/
inductive TxOp where
  | begin
  | create
  | rollback
  | commit
deriving DecidableEq, Repr

/-- Outcomes of the calls one run of `processFile` makes outside itself. -/
structure Calls where
  /-- The call `os.Stat(path)`: `info.Size()`, or the error. -/
  stat : Except String Int
  /-- The call `hashing.CalculateHash(path)`. -/
  hash : Except String String
  /-- The call `ai.ClassifyFile(path)`, which returns no error. -/
  category : String
  /-- The call `detectMimeType(path)`. -/
  mimeType : String
  /-- `result.Error` of `tx.Create(&file)`. -/
  createErr : Option String
  /-- Error of `index.AddDocuments`. -/
  addErr : Option String
  /-- Error of `client.WaitForTask`.  The call also returns the task, which
  the code discards (line 174). -/
  waitErr : Option String
  /-- Whether the index applies the submitted task, so that it holds the
  document when `processFile` returns.  A wait that returns no error can
  return a task that ended as failed, and a wait that returns an error (for
  instance on its timeout) can belong to a task the index applies all the
  same; the code reads the status in neither case. -/
  taskApplied : Bool
  /-- Error of `tx.Commit()`. -/
  commitErr : Option String

/-- What a run of `processFile` leaves behind: the returned error, the sink,
and the operations made on the transaction. -/
structure Result where
  err : Option String
  sink : Sink
  tx : List TxOp

/-- The index document built from a row (lines 158-164). -/
def docOf (file : File) : Doc :=
  { id := file.ID, path := file.Path, category := file.Category, hash := file.Hash,
    tags := file.Tags }

/-- Effect of an applied `AddDocuments` task with primary key `id`: the
document replaces any document with the same id. -/
def addDocument (index : List Doc) (doc : Doc) : List Doc :=
  index.filter (fun d => d.id ≠ doc.id) ++ [doc]

/-- The function `processFile(path, index, client)`.  Once `AddDocuments` has
accepted the submission the index holds the document exactly when the task is
applied, whatever `WaitForTask` and the commit return.  A rollback and a failed
commit leave the store as it was before `Begin`.  The deferred function rolls
back only on a panic, which none of the modelled calls raises. -/
def processFile (c : Calls) (path : String) (s : Sink) : Result :=
  match c.stat with
  | .error e => ⟨some ("failed to stat file " ++ path ++ ": " ++ e), s, []⟩
  | .ok size =>
    match c.hash with
    | .error e => ⟨some ("hashing failed for " ++ path ++ ": " ++ e), s, []⟩
    | .ok hash =>
      match c.createErr with
      | some e => ⟨some ("failed to save file " ++ path ++ ": " ++ e), s, [.begin, .create, .rollback]⟩
      | none =>
        let file : File :=
          { ID := s.store.nextID, Path := path, Category := c.category, Hash := hash, Tags := "",
            Size := size, MimeType := c.mimeType }
        let doc := docOf file
        match c.addErr with
        | some e =>
          ⟨some ("failed to index file " ++ path ++ ": " ++ e), s, [.begin, .create, .rollback]⟩
        | none =>
          let index := if c.taskApplied then addDocument s.index doc else s.index
          match c.waitErr with
          | some e =>
            ⟨some ("indexing task failed for " ++ path ++ ": " ++ e),
              { store := s.store, index := index }, [.begin, .create, .rollback]⟩
          | none =>
            match c.commitErr with
            | some e => ⟨some e, { store := s.store, index := index }, [.begin, .create, .commit]⟩
            | none =>
              ⟨none,
                { store := { rows := s.store.rows ++ [file], nextID := s.store.nextID + 1 },
                  index := index },
                [.begin, .create, .commit]⟩

/-- Whether every call of a run succeeds. -/
def Calls.allOk (c : Calls) : Bool :=
  (match c.stat with | .ok _ => true | .error _ => false) &&
  (match c.hash with | .ok _ => true | .error _ => false) &&
  c.createErr.isNone && c.addErr.isNone && c.waitErr.isNone && c.commitErr.isNone

/-- A sequence of `processFile` calls, each on the sink the previous one left. -/
def processAll (calls : List (Calls × String)) (s : Sink) : Sink :=
  calls.foldl (fun sink cp => (processFile cp.1 cp.2 sink).sink) s

/-- The property the specification asks of the sink: a record with a given id
and hash is in the store exactly when a document with that id and hash is in
the index. -/
def Paired (s : Sink) : Prop :=
  ∀ (id : Nat) (hash : String),
    (∃ f ∈ s.store.rows, f.ID = id ∧ f.Hash = hash) ↔ (∃ d ∈ s.index, d.id = id ∧ d.hash = hash)

/-- An empty store and an empty index. -/
def emptySink : Sink := { store := { rows := [], nextID := 1 }, index := [] }

/-- A run in which every call succeeds and the index applies the task, for a
ten-byte file with hash `h`. -/
def okCalls (h : String) : Calls :=
  { stat := .ok 10, hash := .ok h, category := "documents", mimeType := "application/pdf",
    createErr := none, addErr := none, waitErr := none, taskApplied := true, commitErr := none }

/-- Whether the run gets as far as a successful `AddDocuments`. -/
def Calls.submitted (c : Calls) : Bool :=
  (match c.stat with | .ok _ => true | .error _ => false) &&
  (match c.hash with | .ok _ => true | .error _ => false) &&
  c.createErr.isNone && c.addErr.isNone

/-- A run in which everything succeeds up to the commit, which fails. -/
def commitFails : Calls := { okCalls "h1" with commitErr := some "database is locked" }

/-- A run in which the index refuses the submission. -/
def submitFails : Calls := { okCalls "h1" with addErr := some "connection refused" }

/-- A run in which every call returns no error and the task ends as failed. -/
def taskFails : Calls := { okCalls "h1" with taskApplied := false }

/-! ## The change monitor (`cmd/monitor.go`, the loop of `startMonitoring`, lines 66-116) -/

/-- One second as a `time.Duration`, in nanoseconds. -/
def second : Int := 1000000000

/-- The settle window `5*time.Second` (the ticker has the same period). -/
def settle : Int := 5 * second

/-- The bit set `fsnotify.Op` of an event. -/
structure Op where
  create : Bool
  write : Bool
  remove : Bool
  rename : Bool
  chmod : Bool
deriving DecidableEq, Repr

/-- What one pass through the `select` receives.  Times are readings of
`time.Now()` in nanoseconds. -/
inductive Msg where
  /-- An event from `watcher.Events`, with the result of `os.Stat(event.Name)`
  (`none` for an error, otherwise `info.IsDir()`) and the time `time.Now()` gives. -/
  | event (name : String) (op : Op) (stat : Option Bool) (now : Int)
  /-- The channel `watcher.Events` is closed. -/
  | eventsClosed
  /-- An error from `watcher.Errors`. -/
  | watchErr (e : String)
  /-- The channel `watcher.Errors` is closed. -/
  | errorsClosed
  /-- A tick of the ticker, with the time `time.Now()` gives in its handler. -/
  | tick (now : Int)
deriving DecidableEq, Repr

/-- State of the monitoring loop.  `processed` and `printed` record what the loop
has done: the calls of `core.CategorizeFile`, each with the `now` of its tick, and
the error lines printed. -/
structure Monitor where
  pendingFiles : List (String × Int)
  watched : List String
  processed : List (String × Int)
  printed : List String
  stopped : Bool

/-- The ticker case (lines 90-114).  The difference `now.Sub(lastModified)`
saturates at the ends of `int64`, which does not change its comparison with
five seconds. -/
def onTick (categorizeFile : String → Option String) (m : Monitor) (now : Int) : Monitor :=
  if m.pendingFiles.length > 0 then
    let filesToProcess :=
      (m.pendingFiles.filter (fun e => decide (now - e.2 ≥ settle))).map Prod.fst
    { m with
      pendingFiles := m.pendingFiles.filter (fun e => !decide (now - e.2 ≥ settle)),
      processed := m.processed ++ filesToProcess.map (fun file => (file, now)),
      printed := m.printed ++ filesToProcess.filterMap (fun file =>
        (categorizeFile file).map (fun e => "Error processing " ++ file ++ ": " ++ e)) }
  else m

/-- One pass through the `select` of the loop.  `categorizeFile` is the error
`core.CategorizeFile` returns for a path. -/
def step (categorizeFile : String → Option String) (m : Monitor) (msg : Msg) : Monitor :=
  if m.stopped then m
  else
    match msg with
    | .event name op stat now =>
      if op.create || op.write then
        match stat with
        | some false => { m with pendingFiles := mapSet m.pendingFiles name now }
        | some true => if op.create then { m with watched := m.watched ++ [name] } else m
        | none => m
      else m
    | .eventsClosed => { m with stopped := true }
    | .watchErr e => { m with printed := m.printed ++ ["Watcher error: " ++ e] }
    | .errorsClosed => { m with stopped := true }
    | .tick now => onTick categorizeFile m now

/-- The loop run on a sequence of messages. -/
def run (categorizeFile : String → Option String) (msgs : List Msg) (m : Monitor) : Monitor :=
  msgs.foldl (step categorizeFile) m

/-- The state at the start of the loop, watching the directories found by the walk. -/
def startMonitor (dirs : List String) : Monitor :=
  { pendingFiles := [], watched := dirs, processed := [], printed := [], stopped := false }

/-- A burst on one path: every event is a create or write event for the regular
file `path`, times do not go back from one message to the next (`cur` is the
time of the previous message), and every event comes less than one settle
window after the event before it (`last`); ticks and watcher errors may come
anywhere in between. -/
def burst (path : String) : Option Int → Int → List Msg → Bool
  | _, _, [] => true
  | last, cur, .event name op stat now :: rest =>
    decide (name = path) && (op.create || op.write) && decide (stat = some false) &&
    decide (cur ≤ now) &&
    (match last with
     | some t => decide (now - t < settle)
     | none => true) &&
    burst path (some now) now rest
  | last, cur, .tick now :: rest => decide (cur ≤ now) && burst path last now rest
  | last, cur, .watchErr _ :: rest => burst path last cur rest
  | _, _, .eventsClosed :: _ => false
  | _, _, .errorsClosed :: _ => false

/-- Time of the last event of a sequence of messages. -/
def lastEvent : List Msg → Option Int
  | [] => none
  | .event _ _ _ now :: rest =>
    match lastEvent rest with
    | some t => some t
    | none => some now
  | _ :: rest => lastEvent rest

/-- A write event on a regular file. -/
def writeEvent (name : String) (now : Int) : Msg :=
  .event name { create := false, write := true, remove := false, rename := false, chmod := false }
    (some false) now

/-- Events on `/r/a` at 0, 1 and 2 seconds, with the ticker firing at 5 and 10 seconds. -/
def burst012 : List Msg :=
  [writeEvent "/r/a" 0, writeEvent "/r/a" second, writeEvent "/r/a" (2 * second),
   .tick (5 * second), .tick (10 * second)]

/-! ## Inputs for the tick of the monitor -/

/-- A monitor with `/r/a` last seen at 0 seconds and `/r/b` at 3 seconds. -/
def twoPending : Monitor :=
  { pendingFiles := [("/r/a", 0), ("/r/b", 3 * second)], watched := ["/r"], processed := [],
    printed := [], stopped := false }

/-! ## Strings and paths of the Go library -/

/-- The predicate `unicode.IsSpace`: the Latin-1 spaces and the other code points
with the property White_Space. -/
def isSpace (c : Char) : Bool :=
  c.toNat ∈ [0x09, 0x0A, 0x0B, 0x0C, 0x0D, 0x20, 0x85, 0xA0, 0x1680, 0x2028, 0x2029, 0x202F,
    0x205F, 0x3000] || (0x2000 ≤ c.toNat && c.toNat ≤ 0x200A)

/-- The function `strings.TrimSpace`. -/
def trimSpace (s : String) : String :=
  ⟨((s.toList.dropWhile isSpace).reverse.dropWhile isSpace).reverse⟩

/-- The function `unicode.ToLower` on one rune: the ASCII letters are folded as
usual, and `unicodeLower` stands for the case table of the Go library on the
runes outside ASCII. -/
def lowerRune (unicodeLower : Char → Char) (c : Char) : Char :=
  if c.toNat < 128 then asciiLower c else unicodeLower c

/-- The function `strings.ToLower`. -/
def toLower (unicodeLower : Char → Char) (s : String) : String :=
  ⟨s.toList.map (lowerRune unicodeLower)⟩

/-- The loop of `filepath.Ext`, reading the path from its end: `acc` holds the
characters passed so far. -/
def extFromEnd : List Char → List Char → List Char
  | [], _ => []
  | c :: rest, acc =>
    if c = '/' then []
    else if c = '.' then '.' :: acc
    else extFromEnd rest (c :: acc)

/-- The function `filepath.Ext`: the suffix of the last path element from its
last dot on, empty when that element has no dot. -/
def filepathExt (path : String) : String :=
  ⟨extFromEnd path.toList.reverse []⟩

/-! ## Classification (`pkg/ai/integration.go`) -/

/-- The closed set of categories. -/
def categories : List String :=
  ["images", "documents", "videos", "audio", "code", "archives", "other"]

/-- The function `validateCategory` (lines 139-150): the category and the error. -/
def validateCategory (category : String) : String × Option String :=
  if category ∈ ["images", "documents", "videos", "audio", "code", "archives", "other"] then
    (category, none)
  else ("other", some ("invalid category: " ++ category))

/-- The function `fallbackClassification` (lines 166-185). -/
def fallbackClassification (unicodeLower : Char → Char) (path : String) : String :=
  let ext := toLower unicodeLower (filepathExt path)
  if ext ∈ [".jpg", ".jpeg", ".png", ".gif", ".webp"] then "images"
  else if ext ∈ [".doc", ".docx", ".pdf", ".txt", ".rtf"] then "documents"
  else if ext ∈ [".mp4", ".mov", ".avi", ".mkv", ".webm"] then "videos"
  else if ext ∈ [".mp3", ".wav", ".flac", ".aac"] then "audio"
  else if ext ∈ [".go", ".py", ".js", ".java", ".cpp"] then "code"
  else if ext ∈ [".zip", ".tar", ".gz", ".7z", ".rar"] then "archives"
  else "other"

/-- The client `GroqClient` as far as classification goes: for a path, how the
exchange with the API ends, either with one of the errors of lines 96-133
(marshalling, request, transport, status, reading, parsing, no choices) or with
the text `response.Choices[0].Message.Content`. -/
structure GroqClient where
  exchange : String → Except String String

/-- The method `(*GroqClient).ClassifyFile` (lines 64-137): category and error. -/
def GroqClient.ClassifyFile (unicodeLower : Char → Char) (g : GroqClient) (path : String) :
    String × Option String :=
  match g.exchange path with
  | .error e => ("", some e)
  | .ok content => validateCategory (trimSpace (toLower unicodeLower content))

/-- The function `ClassifyFile` (lines 152-164); `client` is the variable `Client`,
`none` for nil. -/
def ClassifyFile (unicodeLower : Char → Char) (client : Option GroqClient) (path : String) :
    String :=
  match client with
  | none => fallbackClassification unicodeLower path
  | some g =>
    match GroqClient.ClassifyFile unicodeLower g path with
    | (_, some _) => fallbackClassification unicodeLower path
    | (category, none) => category

/-- The extension table of the fallback, as pairs of extension and category. -/
def extensionTable : List (String × String) :=
  [(".jpg", "images"), (".jpeg", "images"), (".png", "images"), (".gif", "images"),
   (".webp", "images"),
   (".doc", "documents"), (".docx", "documents"), (".pdf", "documents"), (".txt", "documents"),
   (".rtf", "documents"),
   (".mp4", "videos"), (".mov", "videos"), (".avi", "videos"), (".mkv", "videos"),
   (".webm", "videos"),
   (".mp3", "audio"), (".wav", "audio"), (".flac", "audio"), (".aac", "audio"),
   (".go", "code"), (".py", "code"), (".js", "code"), (".java", "code"), (".cpp", "code"),
   (".zip", "archives"), (".tar", "archives"), (".gz", "archives"), (".7z", "archives"),
   (".rar", "archives")]

/-- The category the extension table assigns to an extension, `other` when the
extension is not in the table. -/
def tableCategory (ext : String) : String :=
  match extensionTable.find? (fun e => e.1 = ext) with
  | some e => e.2
  | none => "other"

/-- A client whose exchange fails. -/
def offlineClient : GroqClient := { exchange := fun _ => .error "API request failed: timeout" }

/-- A client whose model answers with `text`. -/
def answeringClient (text : String) : GroqClient := { exchange := fun _ => .ok text }

/-! ## Root prefixes -/

/-- The test `strings.HasPrefix(path, root)`, on the characters of both. -/
def startsWith : List Char → List Char → Bool
  | [], _ => true
  | _ :: _, [] => false
  | r :: rs, c :: cs => decide (r = c) && startsWith rs cs

/-- Two recorded files with the same content, one under `/data/my_files` and
one under `/data/myXfiles`. -/
def underscoreWorld : World :=
  { fs := fun q => if q = "/data/my_files/a.txt" ∨ q = "/data/myXfiles/a.txt" then some 10 else none,
    db := [⟨1, "/data/my_files/a.txt", "documents", "h1", "", 10, "text/plain"⟩,
           ⟨2, "/data/myXfiles/a.txt", "documents", "h1", "", 10, "text/plain"⟩] }

/-! ## The command `deduplicate` (`cmd/deduplicate.go`, lines 18-76) -/

/-- The flag variables `dryRun` and `confirm`. -/
structure DedupFlags where
  dryRun : Bool
  confirm : Bool
deriving DecidableEq, Repr

/-- The defaults registered in `init` (lines 74-75): `--dry-run` is true and
`--confirm` is false. -/
def defaultFlags : DedupFlags := { dryRun := true, confirm := false }

/-- One boolean flag of the command line, as the flag library reads it: the bare
flag sets true, `=true` and `=false` set the value given. -/
def setFlag (flags : DedupFlags) (arg : String) : DedupFlags :=
  if arg = "--confirm" ∨ arg = "--confirm=true" then { flags with confirm := true }
  else if arg = "--confirm=false" then { flags with confirm := false }
  else if arg = "--dry-run" ∨ arg = "--dry-run=true" then { flags with dryRun := true }
  else if arg = "--dry-run=false" then { flags with dryRun := false }
  else flags

/-- The flags after the command line is read, starting from the defaults. -/
def parseFlags (args : List String) : DedupFlags :=
  args.foldl setFlag defaultFlags

/-- What a run of the command leaves: the world, the value of
`removeDuplicates` when it was called, and the lines printed that do not depend
on the formatting of the size. -/
structure DedupOutcome where
  w : World
  removed : Option Nat
  printed : List String

/-- The function `Run` of `deduplicateCmd` (lines 22-69), after argument
parsing; `initErr` is the error of `storage.InitDB`. -/
def deduplicateRun (flags : DedupFlags) (initErr queryErr : Option String) (env : RemoveEnv)
    (w : World) (path : String) : DedupOutcome :=
  match initErr with
  | some e => ⟨w, none, ["Database initialization failed: " ++ e]⟩
  | none =>
    match findDuplicates queryErr w path with
    | .error e => ⟨w, none, ["Error finding duplicates: " ++ e]⟩
    | .ok (duplicates, _) =>
      if duplicates.length = 0 then ⟨w, none, []⟩
      else if flags.dryRun || !flags.confirm then
        ⟨w, none, ["Run with --confirm to remove duplicates"]⟩
      else
        ⟨(removeDuplicatesRun env duplicates w).w, some (removeDuplicates env duplicates w),
          ["Removed " ++ toString (removeDuplicates env duplicates w) ++ " duplicate files"]⟩

/-! ## `uniqueTags` (`cmd/tag.go`, lines 163-176) -/

/-- The expression `seen[tag]` on a `map[string]bool`: false for a missing key. -/
def seenGet : List (String × Bool) → String → Bool
  | [], _ => false
  | (k, v) :: m, key => if k = key then v else seenGet m key

/-- One iteration of the loop of `uniqueTags` (lines 167-173) on the pair of
`seen` and `unique`. -/
def uniqueStep (unicodeLower : Char → Char) (acc : List (String × Bool) × List String)
    (tag : String) : List (String × Bool) × List String :=
  let tag := toLower unicodeLower (trimSpace tag)
  if tag ≠ "" ∧ seenGet acc.1 tag = false then (mapSet acc.1 tag true, acc.2 ++ [tag])
  else acc

/-- The function `uniqueTags`. -/
def uniqueTags (unicodeLower : Char → Char) (tags : List String) : List String :=
  (tags.foldl (uniqueStep unicodeLower) ([], [])).2

/-- A tag trimmed and lower-cased. -/
def normalTag (unicodeLower : Char → Char) (tag : String) : String :=
  toLower unicodeLower (trimSpace tag)

/-- The elements of a list in order of first occurrence, none repeated. -/
def firstOccurrences : List String → List String
  | [] => []
  | x :: xs => x :: (firstOccurrences xs).filter (fun y => y ≠ x)

/-- The lower-case mapping of the capital letters of Latin-1 outside ASCII
(`À` to `Þ`, without the multiplication sign), the identity elsewhere. -/
def latin1Lower (c : Char) : Char :=
  if 0xC0 ≤ c.toNat ∧ c.toNat ≤ 0xDE ∧ c.toNat ≠ 0xD7 then Char.ofNat (c.toNat + 32) else c

/-! ## The worker pool of `CategorizeFiles` (`internal/core/organizer.go`, lines 50-96)

The goroutines of the pool are modelled as a transition system: a state holds
the program point of every goroutine and the contents of the channels, and a
step is one channel operation or one call of `processFile` by one goroutine.
A schedule is the sequence of goroutines the runtime lets move; a goroutine
that is blocked or has exited does not move when it is picked. -/

/-- Capacity of `filesChan` (line 50). -/
def filesCap : Nat := 100

/-- Capacity of `errChan` (line 51). -/
def errCap : Nat := 10

/-- Program points of a worker goroutine (lines 57-65). -/
inductive WorkerPc where
  /-- At `for path := range filesChan`, waiting for a path or for the close. -/
  | receiving
  /-- Holding `path`, before the call `processFile(path, index, client)`. -/
  | processing (path : String)
  /-- At `errChan <- err`. -/
  | reporting (err : String)
  /-- At `doneChan <- true`. -/
  | finishing
  /-- Returned. -/
  | exited
deriving DecidableEq, Repr

/-- Program points of the goroutine that walks the directory (lines 68-82). -/
inductive WalkerPc where
  /-- Inside `filepath.Walk`, with the regular files still to be visited. -/
  | walking (todo : List String)
  /-- At `errChan <- err`, after the walk returned an error. -/
  | reporting (err : String)
  /-- At `close(filesChan)`. -/
  | closing
  /-- Returned. -/
  | exited
deriving DecidableEq, Repr

/-- What the pool meets outside itself: the error with which `filepath.Walk`
ends once it has visited the files of the start state (`none` for a complete
walk), and the outcomes of the calls `processFile` makes on each path. -/
structure PoolEnv where
  walkErr : Option String
  calls : String → Calls

/-- State of a run of the pool.  The main goroutine is at its `doneCount`-th
receive from `doneChan` until `result` holds the value `CategorizeFiles` returns.
`processed` lists the paths handed to `processFile`, in call order, and
`reported` the errors sent into `errChan`, in send order. -/
structure Pool where
  walker : WalkerPc
  filesChan : List String
  closed : Bool
  errChan : List String
  workers : List WorkerPc
  doneCount : Nat
  result : Option (Option String)
  processed : List String
  reported : List String
  sink : Sink

/-- The goroutines. -/
inductive Actor where
  | walker
  | worker (i : Nat)
  | main
deriving DecidableEq, Repr

/-- One step of the walking goroutine, `none` when it is blocked or has returned. -/
def stepWalker (env : PoolEnv) (s : Pool) : Option Pool :=
  match s.walker with
  | .walking (p :: rest) =>
    if s.filesChan.length < filesCap then
      some { s with walker := .walking rest, filesChan := s.filesChan ++ [p] }
    else none
  | .walking [] =>
    some { s with walker := match env.walkErr with
                            | some e => .reporting e
                            | none => .closing }
  | .reporting e =>
    if s.errChan.length < errCap then
      some { s with walker := .closing, errChan := s.errChan ++ [e],
                    reported := s.reported ++ [e] }
    else none
  | .closing => some { s with walker := .exited, closed := true }
  | .exited => none

/-- Where a worker goes after `processFile` returned `err` (lines 59-61). -/
def afterProcess (err : Option String) : WorkerPc :=
  match err with
  | some e => .reporting e
  | none => .receiving

/-- One step of worker `i`, `none` when it is blocked or has returned.  The
send on the unbuffered `doneChan` meets the receive of the main goroutine. -/
def stepWorker (env : PoolEnv) (s : Pool) (i : Nat) : Option Pool :=
  match s.workers[i]? with
  | none => none
  | some .receiving =>
    match s.filesChan with
    | p :: rest => some { s with filesChan := rest, workers := s.workers.set i (.processing p) }
    | [] => if s.closed then some { s with workers := s.workers.set i .finishing } else none
  | some (.processing p) =>
    some { s with
      sink := (processFile (env.calls p) p s.sink).sink,
      processed := s.processed ++ [p],
      workers := s.workers.set i (afterProcess (processFile (env.calls p) p s.sink).err) }
  | some (.reporting e) =>
    if s.errChan.length < errCap then
      some { s with errChan := s.errChan ++ [e], reported := s.reported ++ [e],
                    workers := s.workers.set i .receiving }
    else none
  | some .finishing =>
    if s.doneCount < s.workers.length then
      some { s with doneCount := s.doneCount + 1, workers := s.workers.set i .exited }
    else none
  | some .exited => none

/-- The step of the main goroutine after its last receive from `doneChan`: the
`select` of lines 90-95 takes the first error waiting in `errChan`, or returns
nil when there is none. -/
def stepMain (s : Pool) : Option Pool :=
  if s.result.isNone ∧ s.doneCount = s.workers.length then
    some { s with result := some s.errChan.head?, errChan := s.errChan.tail }
  else none

/-- One step of the goroutine the scheduler picks. -/
def poolStep (env : PoolEnv) (s : Pool) : Actor → Option Pool
  | .walker => stepWalker env s
  | .worker i => stepWorker env s i
  | .main => stepMain s

/-- A run under a schedule. -/
def exec (env : PoolEnv) (sched : List Actor) (s : Pool) : Pool :=
  sched.foldl (fun st a => (poolStep env st a).getD st) s

/-- The state after line 65: `workerCount` workers started, the walk about to
visit `paths`, the channels empty. -/
def startPool (workerCount : Nat) (paths : List String) (sink : Sink) : Pool :=
  { walker := .walking paths, filesChan := [], closed := false, errChan := [],
    workers := List.replicate workerCount .receiving, doneCount := 0, result := none,
    processed := [], reported := [], sink := sink }

/-- The error `processFile` returns on a path; it depends on the outcomes of its
calls only. -/
def fileErr (env : PoolEnv) (p : String) : Option String :=
  (processFile (env.calls p) p emptySink).err

/-- The errors the run has to report: those of the per-file routine and that of the walk. -/
def allErrors (env : PoolEnv) (paths : List String) : List String :=
  paths.filterMap (fileErr env) ++ env.walkErr.toList

/-- Outcomes of a run of `processFile` whose `os.Stat` fails. -/
def statFailsCalls : Calls :=
  { okCalls "h" with stat := .error "no such file or directory" }

/-- An environment in which the walk is complete and every file fails. -/
def allFail : PoolEnv := { walkErr := none, calls := fun _ => statFailsCalls }

/-- An environment in which every file fails and the walk ends with an error. -/
def allFailWalkErr : PoolEnv :=
  { walkErr := some "permission denied", calls := fun _ => statFailsCalls }

/-- Twelve file paths. -/
def twelvePaths : List String :=
  ["/r/01", "/r/02", "/r/03", "/r/04", "/r/05", "/r/06", "/r/07", "/r/08", "/r/09", "/r/10",
   "/r/11", "/r/12"]

/-- The schedule that lets the walker, then worker 0, then the main goroutine
move, `n` times over. -/
def roundRobin : Nat → List Actor
  | 0 => []
  | n + 1 => [.walker, .worker 0, .main] ++ roundRobin n

/-! ## What a state of the pool holds -/

/-- The path a worker holds between receiving it and calling `processFile`. -/
def heldPath : WorkerPc → Option String
  | .processing p => some p
  | _ => none

/-- The error a worker holds at `errChan <- err`. -/
def heldErr : WorkerPc → Option String
  | .reporting e => some e
  | _ => none

/-- Marks a worker that has returned. -/
def hasExited : WorkerPc → Option Unit
  | .exited => some ()
  | _ => none

/-- Paths held by workers that have received them and not yet called `processFile`. -/
def processingPaths (ws : List WorkerPc) : List String := ws.filterMap heldPath

/-- Errors held by workers at `errChan <- err`. -/
def reportingErrs (ws : List WorkerPc) : List String := ws.filterMap heldErr

/-- Number of workers that have returned. -/
def exitedCount (ws : List WorkerPc) : Nat := (ws.filterMap hasExited).length

/-- Paths the walk has still to visit. -/
def walkerTodo : WalkerPc → List String
  | .walking todo => todo
  | _ => []

/-- The error the walking goroutine holds at `errChan <- err`. -/
def walkerReport : WalkerPc → List String
  | .reporting e => [e]
  | _ => []

/-- The error of the walk once the walk has returned. -/
def walkErrDue (env : PoolEnv) : WalkerPc → List String
  | .walking _ => []
  | _ => env.walkErr.toList

/-- Invariant of the runs of the pool that start with `n` workers, the walk
about to visit `paths`, and the sink `sink₀`. -/
structure PoolInv (env : PoolEnv) (paths : List String) (n : Nat) (sink₀ : Sink) (s : Pool) :
    Prop where
  /-- Every path is in exactly one place: processed, held by a worker, in the
  channel, or still to be visited. -/
  paths_count : ∀ x, s.processed.count x + (processingPaths s.workers).count x
    + s.filesChan.count x + (walkerTodo s.walker).count x = paths.count x
  /-- Every error that has arisen is either sent or held by a blocked sender. -/
  errs_count : ∀ e, s.reported.count e + (reportingErrs s.workers).count e
    + (walkerReport s.walker).count e
      = (s.processed.filterMap (fileErr env)).count e + (walkErrDue env s.walker).count e
  /-- Nothing is received from `errChan` before the final `select`. -/
  buffer : s.result = none → s.errChan = s.reported
  cap : s.reported.length ≤ errCap
  closed_iff : s.closed = true ↔ s.walker = .exited
  done_workers : ∀ pc ∈ s.workers, pc = .finishing ∨ pc = .exited →
    s.closed = true ∧ s.filesChan = []
  done_count : s.doneCount = exitedCount s.workers
  workers_len : s.workers.length = n
  returned : ∀ r, s.result = some r → s.doneCount = n ∧ r = s.reported.head?
  sink_eq : s.sink = processAll (s.processed.map (fun p => (env.calls p, p))) sink₀
  walker_err : ∀ e, s.walker = .reporting e → env.walkErr = some e

/-! ## A measure of the work left in a run of the pool -/

/-- Steps the walking goroutine can still make, counting for each path to be
visited its send, its receive, its call of `processFile` and its error report. -/
def walkerWork : WalkerPc → Nat
  | .walking todo => 4 * todo.length + 3
  | .reporting _ => 2
  | .closing => 1
  | .exited => 0

/-- Steps a worker can still make for what it holds and to finish. -/
def workerWork : WorkerPc → Nat
  | .receiving => 2
  | .processing _ => 4
  | .reporting _ => 3
  | .finishing => 1
  | .exited => 0

/-- An upper bound on the number of steps a run can still make. -/
def poolMeasure (s : Pool) : Nat :=
  walkerWork s.walker + 3 * s.filesChan.length + (s.workers.map workerWork).sum
    + (if s.result.isNone then 1 else 0)

/-! ## Runs of the pool on files that all fail -/

/-- One worker and twelve files that all fail, after forty rounds of the
round-robin schedule. -/
def stuckTwelve : Pool :=
  exec allFail (roundRobin 40) (startPool 1 twelvePaths emptySink)

/-- One worker and eleven files that all fail, after forty rounds of the
round-robin schedule. -/
def stuckEleven : Pool :=
  exec allFail (roundRobin 40) (startPool 1 (twelvePaths.take 11) emptySink)

/-- An environment in which the walk is complete and every call succeeds. -/
def allSucceed : PoolEnv := { walkErr := none, calls := fun _ => okCalls "h" }

/-! ## Lemmas on Go maps -/

theorem mapGet_mapSet (m : GoMap) (k k' : String) (v : List String) :
    mapGet (mapSet m k v) k' = if k = k' then v else mapGet m k' := by
  induction m with
  | nil => simp [mapSet, mapGet]
  | cons e m ih =>
    obtain ⟨a, b⟩ := e
    by_cases hak : a = k
    · subst hak
      by_cases hk : a = k' <;> simp [mapSet, mapGet, hk]
    · by_cases hk : k = k'
      · subst hk
        simp [mapSet, mapGet, hak, ih]
      · by_cases hak' : a = k'
        · subst hak'
          simp [mapSet, mapGet, hak, hk]
        · simp [mapSet, mapGet, hak, hak', hk, ih]

theorem mapHas_mapSet (m : GoMap) (k k' : String) (v : List String) :
    mapHas (mapSet m k v) k' = (decide (k = k') || mapHas m k') := by
  induction m with
  | nil => simp [mapSet, mapHas]
  | cons e m ih =>
    obtain ⟨a, b⟩ := e
    by_cases hak : a = k
    · subst hak
      by_cases hk : a = k' <;> simp [mapSet, mapHas, hk]
    · by_cases hk : k = k'
      · subst hk
        by_cases hak' : a = k <;> simp [mapSet, mapHas, hak, ih]
      · by_cases hak' : a = k'
        · subst hak'
          simp [mapSet, mapHas, hak, hk]
        · simp [mapSet, mapHas, hak, hak', hk, ih]

theorem mapHas_iff_mem_keys (m : GoMap) (k : String) :
    mapHas m k = true ↔ k ∈ m.map Prod.fst := by
  induction m with
  | nil => simp [mapHas]
  | cons e m ih =>
    obtain ⟨a, b⟩ := e
    by_cases hak : a = k
    · simp [mapHas, hak]
    · simp [mapHas, hak, ih, Ne.symm hak]

theorem mapSet_of_not_has (m : GoMap) (k : String) (v : List String) (h : mapHas m k = false) :
    mapSet m k v = m ++ [(k, v)] := by
  induction m with
  | nil => simp [mapSet]
  | cons e m ih =>
    obtain ⟨a, b⟩ := e
    by_cases hak : a = k
    · simp [mapHas, hak] at h
    · simp [mapHas, hak] at h
      simp [mapSet, hak, ih h]

theorem keys_mapSet (m : GoMap) (k : String) (v : List String) :
    (mapSet m k v).map Prod.fst = if mapHas m k then m.map Prod.fst else m.map Prod.fst ++ [k] := by
  induction m with
  | nil => simp [mapSet, mapHas]
  | cons e m ih =>
    obtain ⟨a, b⟩ := e
    by_cases hak : a = k
    · simp [mapSet, mapHas, hak]
    · simp [mapSet, mapHas, hak, ih]
      split <;> simp

theorem keys_nodup_mapSet (m : GoMap) (k : String) (v : List String)
    (h : (m.map Prod.fst).Nodup) : ((mapSet m k v).map Prod.fst).Nodup := by
  rw [keys_mapSet]
  split
  · exact h
  · rename_i hk
    have : k ∉ m.map Prod.fst := fun hm => hk ((mapHas_iff_mem_keys m k).2 hm)
    exact List.Nodup.append h (List.nodup_singleton k) (by simpa using this)

/-- For a map with distinct keys, membership of an entry is lookup. -/
theorem mem_iff_lookup (m : GoMap) (hm : (m.map Prod.fst).Nodup) (k : String) (v : List String) :
    (k, v) ∈ m ↔ mapHas m k = true ∧ mapGet m k = v := by
  induction m with
  | nil => simp [mapHas]
  | cons e m ih =>
    obtain ⟨a, b⟩ := e
    simp only [List.map_cons, List.nodup_cons] at hm
    by_cases hak : a = k
    · subst hak
      have hno : ∀ w, (a, w) ∉ m := fun w hw => hm.1 (List.mem_map_of_mem Prod.fst hw)
      simp [mapHas, mapGet, hno]
      exact eq_comm
    · simp [mapHas, mapGet, hak, ih hm.2, Ne.symm hak]

/-! ## Lemmas on `findDuplicates` -/

theorem groupFold_get (files : List File) (m : GoMap) (h : String) :
    mapGet (files.foldl (fun hashMap file =>
        mapSet hashMap file.Hash (mapGet hashMap file.Hash ++ [file.Path])) m) h
      = mapGet m h ++ (files.filter (fun f => f.Hash = h)).map (fun f => f.Path) := by
  induction files generalizing m with
  | nil => simp
  | cons f fs ih =>
    rw [List.foldl_cons, ih, mapGet_mapSet]
    by_cases hf : f.Hash = h
    · simp [hf]
    · simp [hf]

theorem groupFold_has (files : List File) (m : GoMap) (h : String) :
    mapHas (files.foldl (fun hashMap file =>
        mapSet hashMap file.Hash (mapGet hashMap file.Hash ++ [file.Path])) m) h
      = (mapHas m h || files.any (fun f => f.Hash = h)) := by
  induction files generalizing m with
  | nil => simp
  | cons f fs ih =>
    rw [List.foldl_cons, ih, mapHas_mapSet]
    by_cases hf : f.Hash = h
    · simp [hf]
    · simp [hf]

theorem groupFold_nodup (files : List File) (m : GoMap) (hm : (m.map Prod.fst).Nodup) :
    ((files.foldl (fun hashMap file =>
        mapSet hashMap file.Hash (mapGet hashMap file.Hash ++ [file.Path])) m).map Prod.fst).Nodup := by
  induction files generalizing m with
  | nil => simpa using hm
  | cons f fs ih =>
    rw [List.foldl_cons]
    exact ih _ (keys_nodup_mapSet m _ _ hm)

theorem groupByHash_get (files : List File) (h : String) :
    mapGet (groupByHash files) h = (files.filter (fun f => f.Hash = h)).map (fun f => f.Path) := by
  simp [groupByHash, groupFold_get, mapGet]

theorem groupByHash_has (files : List File) (h : String) :
    mapHas (groupByHash files) h = files.any (fun f => f.Hash = h) := by
  simp [groupByHash, groupFold_has, mapHas]

theorem groupByHash_nodup (files : List File) : ((groupByHash files).map Prod.fst).Nodup := by
  unfold groupByHash
  exact groupFold_nodup files [] (by simp)

/-- The groups kept by the filter loop are the entries of the hash map with
more than one path, in the order they are visited. -/
theorem filterFold_fst (stat : String → Option Int) (es : GoMap) (acc : GoMap × Int)
    (hnd : (es.map Prod.fst).Nodup) (hdisj : ∀ k ∈ es.map Prod.fst, mapHas acc.1 k = false) :
    (es.foldl (filterStep stat) acc).1 = acc.1 ++ es.filter (fun e => decide (e.2.length > 1)) := by
  induction es generalizing acc with
  | nil => simp
  | cons e es ih =>
    obtain ⟨k, v⟩ := e
    simp only [List.map_cons, List.nodup_cons] at hnd
    rw [List.foldl_cons]
    have hk : mapHas acc.1 k = false := hdisj k (by simp)
    by_cases hv : v.length > 1
    · have hstep : (filterStep stat acc (k, v)).1 = acc.1 ++ [(k, v)] := by
        simp [filterStep, hv, mapSet_of_not_has _ _ _ hk]
      rw [ih _ hnd.2, hstep]
      · simp [hv]
      · intro k' hk'
        rw [hstep]
        have hne : k' ≠ k := fun h => hnd.1 (h ▸ hk')
        have h1 : mapHas acc.1 k' = false := hdisj k' (by simp [hk'])
        have : mapHas (mapSet acc.1 k v) k' = false := by
          rw [mapHas_mapSet]; simp [h1, Ne.symm hne]
        rwa [mapSet_of_not_has _ _ _ hk] at this
    · have hstep : filterStep stat acc (k, v) = acc := by
        simp [filterStep, hv]
      rw [hstep, ih _ hnd.2]
      · simp [hv]
      · intro k' hk'
        exact hdisj k' (by simp [hk'])

theorem findDuplicatesLoaded_fst (stat : String → Option Int) (files : List File) :
    (findDuplicatesLoaded stat files).1
      = (groupByHash files).filter (fun e => decide (e.2.length > 1)) := by
  unfold findDuplicatesLoaded
  rw [filterFold_fst stat _ _ (groupByHash_nodup files) (by intro k _; rfl)]
  simp

theorem findDuplicatesLoaded_nodup (stat : String → Option Int) (files : List File) :
    ((findDuplicatesLoaded stat files).1.map Prod.fst).Nodup := by
  rw [findDuplicatesLoaded_fst]
  exact List.Nodup.sublist (List.Sublist.map _ (List.filter_sublist _)) (groupByHash_nodup files)

/-- An entry of the result: a hash together with all paths loaded with it, two or more. -/
theorem mem_findDuplicatesLoaded (stat : String → Option Int) (files : List File)
    (h : String) (paths : List String) :
    (h, paths) ∈ (findDuplicatesLoaded stat files).1 ↔
      paths = (files.filter (fun f => f.Hash = h)).map (fun f => f.Path) ∧ 2 ≤ paths.length := by
  rw [findDuplicatesLoaded_fst, List.mem_filter, mem_iff_lookup _ (groupByHash_nodup files),
    groupByHash_get, groupByHash_has]
  constructor
  · rintro ⟨⟨_, h2⟩, h3⟩
    simp at h3
    exact ⟨h2.symm, h3⟩
  · rintro ⟨h1, h2⟩
    subst h1
    refine ⟨⟨?_, rfl⟩, by simpa using h2⟩
    simp only [List.length_map] at h2
    have hpos : 0 < (files.filter (fun f => f.Hash = h)).length := by omega
    obtain ⟨f, hf⟩ := List.exists_mem_of_length_pos hpos
    rw [List.mem_filter] at hf
    rw [List.any_eq_true]
    exact ⟨f, hf.1, hf.2⟩

/-- Claim C1.  The map returned by `findDuplicates` has as keys exactly the
hashes carried by at least two loaded records, the group of a key lists the
paths of all loaded records with that hash in load order, and the map has one
entry per key; records `a:h1, b:h1, c:h2` give the single group `h1 -> [a, b]`. -/
theorem findDuplicates_keys_and_groups :
    (∀ (stat : String → Option Int) (files : List File) (h : String),
      (mapHas (findDuplicatesLoaded stat files).1 h = true ↔
        2 ≤ (files.filter (fun f => f.Hash = h)).length) ∧
      (mapHas (findDuplicatesLoaded stat files).1 h = true →
        mapGet (findDuplicatesLoaded stat files).1 h
          = (files.filter (fun f => f.Hash = h)).map (fun f => f.Path)) ∧
      ((findDuplicatesLoaded stat files).1.map Prod.fst).Nodup) ∧
    (∀ (stat : String → Option Int) (w : World) (rootPath : String),
      (findDuplicatesLoaded stat abcRecords).1 = [("h1", ["a", "b"])] ∧
      findDuplicates none w rootPath
        = .ok (findDuplicatesLoaded w.fs (loadByRoot w.db rootPath))) := by
  refine ⟨fun stat files h => ?_, fun stat w rootPath => ⟨rfl, rfl⟩⟩
  · have hnd := findDuplicatesLoaded_nodup stat files
    have key : ∀ v, (mapHas (findDuplicatesLoaded stat files).1 h = true ∧
        mapGet (findDuplicatesLoaded stat files).1 h = v) ↔
        (v = (files.filter (fun f => f.Hash = h)).map (fun f => f.Path) ∧ 2 ≤ v.length) :=
      fun v => (mem_iff_lookup _ hnd h v).symm.trans (mem_findDuplicatesLoaded stat files h v)
    refine ⟨⟨fun hh => ?_, fun hc => ?_⟩, fun hh => ?_, hnd⟩
    · have := (key _).1 ⟨hh, rfl⟩
      rw [this.1] at this
      simpa using this.2
    · exact ((key _).2 ⟨rfl, by simpa using hc⟩).1
    · exact ((key _).1 ⟨hh, rfl⟩).1

theorem wrapInt64_modEq (x : Int) : wrapInt64 x ≡ x [ZMOD 18446744073709551616] := by
  unfold wrapInt64 Int.ModEq
  omega

theorem wrapInt64_congr {x y : Int} (h : x ≡ y [ZMOD 18446744073709551616]) :
    wrapInt64 x = wrapInt64 y := by
  unfold wrapInt64
  unfold Int.ModEq at h
  omega

theorem wrapInt64_idem (x : Int) : wrapInt64 (wrapInt64 x) = wrapInt64 x :=
  wrapInt64_congr (wrapInt64_modEq x)

theorem wrapInt64_add (a b : Int) : wrapInt64 (a + wrapInt64 b) = wrapInt64 (a + b) :=
  wrapInt64_congr (Int.ModEq.add_left a (wrapInt64_modEq b))

theorem wrapInt64_add_left (a b : Int) : wrapInt64 (wrapInt64 a + b) = wrapInt64 (a + b) :=
  wrapInt64_congr (Int.ModEq.add_right b (wrapInt64_modEq a))

theorem filterStep_snd (stat : String → Option Int) (acc : GoMap × Int) (e : String × List String) :
    wrapInt64 (filterStep stat acc e).2
      = wrapInt64 (acc.2 + if e.2.length > 1 then groupReclaim stat e else 0) := by
  unfold filterStep groupReclaim
  by_cases hv : e.2.length > 1
  · simp only [hv, if_true]
    cases stat (e.2.headD "") with
    | none => simp
    | some size => simp only [wrapInt64_idem, wrapInt64_add]
  · simp [hv]

theorem filterStep_wrapped (stat : String → Option Int) (acc : GoMap × Int) (e : String × List String)
    (h : wrapInt64 acc.2 = acc.2) : wrapInt64 (filterStep stat acc e).2 = (filterStep stat acc e).2 := by
  unfold filterStep
  by_cases hv : e.2.length > 1
  · simp only [hv, if_true]
    cases stat (e.2.headD "") with
    | none => simpa using h
    | some size => simp only [wrapInt64_idem]
  · simpa [hv] using h

theorem filterFold_snd (stat : String → Option Int) (es : GoMap) (acc : GoMap × Int) :
    wrapInt64 (es.foldl (filterStep stat) acc).2
      = wrapInt64 (acc.2 + reclaimable stat (es.filter (fun e => decide (e.2.length > 1)))) := by
  induction es generalizing acc with
  | nil => simp [reclaimable]
  | cons e es ih =>
    rw [List.foldl_cons, ih, ← wrapInt64_add_left, filterStep_snd, wrapInt64_add_left]
    by_cases hv : e.2.length > 1
    · simp [hv, reclaimable, List.filter_cons, add_assoc]
    · simp [hv, reclaimable, List.filter_cons]

theorem filterFold_wrapped (stat : String → Option Int) (es : GoMap) (acc : GoMap × Int)
    (h : wrapInt64 acc.2 = acc.2) :
    wrapInt64 (es.foldl (filterStep stat) acc).2 = (es.foldl (filterStep stat) acc).2 := by
  induction es generalizing acc with
  | nil => simpa using h
  | cons e es ih =>
    rw [List.foldl_cons]
    exact ih _ (filterStep_wrapped stat acc e h)

theorem findDuplicatesLoaded_snd (stat : String → Option Int) (files : List File) :
    (findDuplicatesLoaded stat files).2
      = wrapInt64 (reclaimable stat (findDuplicatesLoaded stat files).1) := by
  rw [findDuplicatesLoaded_fst]
  unfold findDuplicatesLoaded
  rw [← filterFold_wrapped stat _ _ (by decide), filterFold_snd]
  simp

/-- Claim C2, against the claim as stated.  With records `a:h1, b:h1, c:h2` of
ten bytes each and `os.Stat` failing, `findDuplicates` returns the group
`h1 -> [a, b]` and 0 reclaimable bytes, while the formula gives 10; and when
`os.Stat` reports 7 bytes for a file recorded with 10, it returns 7. -/
theorem reclaimable_counterexample :
    (findDuplicatesLoaded statFails abcRecords).1 = [("h1", ["a", "b"])] ∧
    (findDuplicatesLoaded statFails abcRecords).2 = 0 ∧
    reclaimableSpec (recordedSize abcRecords) (findDuplicatesLoaded statFails abcRecords).1 = 10 ∧
    (findDuplicatesLoaded (fun _ => some 7) abcRecords).2 = 7 ∧
    reclaimableSpec (recordedSize abcRecords)
      (findDuplicatesLoaded (fun _ => some 7) abcRecords).1 = 10 := by
  decide

/-- Claim C2, amended.  The byte count returned by `findDuplicates` is the
`int64` sum, over the returned groups whose first path `os.Stat` succeeds on,
of (the size `os.Stat` reports for that path) times (group size minus 1); a
group whose first path cannot be examined adds nothing.  For records
`a:h1, b:h1, c:h2` it is the size `os.Stat` reports for `a`. -/
theorem findDuplicates_totalSize :
    (∀ (stat : String → Option Int) (files : List File),
      (findDuplicatesLoaded stat files).2
        = wrapInt64 (reclaimable stat (findDuplicatesLoaded stat files).1)) ∧
    (∀ (other : String → Option Int) (size : Int),
      (findDuplicatesLoaded (fun p => if p = "a" then some size else other p) abcRecords).2
        = wrapInt64 size) := by
  constructor
  · exact findDuplicatesLoaded_snd
  · intro other size
    simp [findDuplicatesLoaded, abcRecords, groupByHash, mapSet, mapGet, filterStep, wrapInt64_idem]

/-- Claim C6, against the claim as stated.  A path recorded twice with one hash
is listed twice in its group, and a path recorded under two hashes that each
have another record appears in two groups. -/
theorem groups_path_twice_counterexample :
    (findDuplicatesLoaded twiceWorld.fs (loadByRoot twiceWorld.db "/r")).1
      = [("h1", ["/r/p", "/r/p"])] ∧
    (findDuplicatesLoaded statFails
      [⟨1, "p", "other", "h1", "", 10, ""⟩, ⟨2, "q", "other", "h1", "", 10, ""⟩,
       ⟨3, "p", "other", "h2", "", 10, ""⟩, ⟨4, "r", "other", "h2", "", 10, ""⟩]).1
      = [("h1", ["p", "q"]), ("h2", ["p", "r"])] := by
  decide

/-- Claim C6, amended.  Every returned group contains at least 2 paths; and
when the loaded records have pairwise distinct paths, no group lists a path
twice and a path appears in at most one group. -/
theorem findDuplicates_groups_disjoint (stat : String → Option Int) (files : List File) :
    (∀ e ∈ (findDuplicatesLoaded stat files).1, 2 ≤ e.2.length) ∧
    ((files.map (fun f => f.Path)).Nodup →
      (∀ e ∈ (findDuplicatesLoaded stat files).1, e.2.Nodup) ∧
      (∀ e₁ ∈ (findDuplicatesLoaded stat files).1, ∀ e₂ ∈ (findDuplicatesLoaded stat files).1,
        ∀ p, p ∈ e₁.2 → p ∈ e₂.2 → e₁ = e₂)) := by
  refine ⟨fun e he => ?_, fun hnd => ⟨fun e he => ?_, fun e₁ he₁ e₂ he₂ p hp₁ hp₂ => ?_⟩⟩
  · exact ((mem_findDuplicatesLoaded stat files e.1 e.2).1 he).2
  · rw [((mem_findDuplicatesLoaded stat files e.1 e.2).1 he).1]
    exact List.Nodup.sublist (List.Sublist.map _ (List.filter_sublist _)) hnd
  · obtain ⟨h₁, v₁⟩ := e₁
    obtain ⟨h₂, v₂⟩ := e₂
    have a₁ := ((mem_findDuplicatesLoaded stat files h₁ v₁).1 he₁).1
    have a₂ := ((mem_findDuplicatesLoaded stat files h₂ v₂).1 he₂).1
    simp only at hp₁ hp₂
    rw [a₁, List.mem_map] at hp₁
    rw [a₂, List.mem_map] at hp₂
    obtain ⟨f₁, hf₁, rfl⟩ := hp₁
    obtain ⟨f₂, hf₂, hpath⟩ := hp₂
    rw [List.mem_filter] at hf₁ hf₂
    have hff : f₂ = f₁ := List.inj_on_of_nodup_map hnd hf₂.1 hf₁.1 hpath
    subst hff
    have hh : h₁ = h₂ := by
      have e1 := hf₁.2
      have e2 := hf₂.2
      simp at e1 e2
      rw [← e1, ← e2]
    subst hh
    rw [a₁, a₂]

/-- Witness for `findDuplicates_groups_disjoint`: records `a:h1, b:h1, c:h2`. -/
theorem findDuplicates_groups_disjoint_witness :
    (abcRecords.map (fun f => f.Path)).Nodup ∧
    (∀ e ∈ (findDuplicatesLoaded statFails abcRecords).1, e.2.Nodup) :=
  ⟨by decide, ((findDuplicates_groups_disjoint statFails abcRecords).2 (by decide)).1⟩

/-! ## Lemmas on `removeDuplicates` -/

/-- The two nested loops visit the non-first members of all groups in order. -/
theorem removeFold_flatten (env : RemoveEnv) (duplicates : GoMap) (st : RemoveState) :
    duplicates.foldl (removeGroup env) st = (otherMembers duplicates).foldl (removeMember env) st := by
  induction duplicates generalizing st with
  | nil => rfl
  | cons e es ih =>
    simp only [List.foldl_cons, otherMembers, List.flatMap_cons, List.foldl_append]
    rw [ih]
    rfl

theorem runInv_init (w : World) : RunInv w { w := w, removed := 0, log := [] } := by
  refine ⟨?_, rfl, ?_⟩
  · simp [deletedPaths]
  · simp

theorem removeMember_ok (env : RemoveEnv) (st : RemoveState) (p : String)
    (h : env.removeOk st.log.length = true) :
    removeMember env st p =
      { w := { fs := fun q => if q = p then none else env.restat st.log.length st.w.fs q,
               db := if env.deleteOk st.log.length then st.w.db.filter (fun f => f.Path ≠ p)
                     else st.w.db },
        removed := st.removed + 1,
        log := st.log ++ [⟨p, true, env.deleteOk st.log.length⟩] } := by
  simp only [removeMember, h, if_true]

theorem removeMember_fail (env : RemoveEnv) (st : RemoveState) (p : String)
    (h : ¬ env.removeOk st.log.length = true) :
    removeMember env st p = { st with log := st.log ++ [⟨p, false, false⟩] } := by
  simp [removeMember, h]

theorem removedPaths_snoc (log : List Attempt) (a : Attempt) :
    removedPaths (log ++ [a]) = removedPaths log ++ (if a.removed then [a.path] else []) := by
  unfold removedPaths
  cases h : a.removed <;> simp [List.filter_append, List.filter_cons, h]

theorem deletedPaths_snoc (log : List Attempt) (a : Attempt) :
    deletedPaths (log ++ [a]) = deletedPaths log ++ (if a.recordDeleted then [a.path] else []) := by
  unfold deletedPaths
  cases h : a.recordDeleted <;> simp [List.filter_append, List.filter_cons, h]

theorem runInv_removeMember (env : RemoveEnv) (w₀ : World) (st : RemoveState) (p : String)
    (h : RunInv w₀ st) : RunInv w₀ (removeMember env st p) := by
  obtain ⟨hdb, hcnt, hlog⟩ := h
  by_cases hok : env.removeOk st.log.length = true
  · rw [removeMember_ok env st p hok]
    refine ⟨?_, ?_, ?_⟩
    · simp only [deletedPaths_snoc]
      by_cases hd : env.deleteOk st.log.length = true
      · simp only [hd, if_true, hdb, List.filter_filter]
        apply List.filter_congr
        intro f _
        by_cases hf : f.Path = p <;> simp [hf]
      · simp [hd, hdb]
    · simp [List.filter_append, hcnt]
    · intro a ha
      simp only [List.mem_append, List.mem_singleton] at ha
      rcases ha with ha | ha
      · exact hlog a ha
      · subst ha
        simp
  · rw [removeMember_fail env st p hok]
    refine ⟨?_, ?_, ?_⟩
    · simp [deletedPaths_snoc, hdb]
    · simp [List.filter_append, hcnt]
    · intro a ha
      simp only [List.mem_append, List.mem_singleton] at ha
      rcases ha with ha | ha
      · exact hlog a ha
      · subst ha
        simp

theorem runInv_fold (env : RemoveEnv) (w₀ : World) (ps : List String) (st : RemoveState)
    (h : RunInv w₀ st) : RunInv w₀ (ps.foldl (removeMember env) st) := by
  induction ps generalizing st with
  | nil => exact h
  | cons p ps ih => exact ih _ (runInv_removeMember env w₀ st p h)

theorem removeDuplicatesRun_inv (env : RemoveEnv) (duplicates : GoMap) (w : World) :
    RunInv w (removeDuplicatesRun env duplicates w) := by
  unfold removeDuplicatesRun
  rw [removeFold_flatten]
  exact runInv_fold env w _ _ (runInv_init w)

theorem removeMember_log_paths (env : RemoveEnv) (st : RemoveState) (p : String) :
    (removeMember env st p).log.map (fun a => a.path) = st.log.map (fun a => a.path) ++ [p] := by
  by_cases hok : env.removeOk st.log.length = true
  · rw [removeMember_ok env st p hok]; simp
  · rw [removeMember_fail env st p hok]; simp

theorem removeFold_log_paths (env : RemoveEnv) (ps : List String) (st : RemoveState) :
    (ps.foldl (removeMember env) st).log.map (fun a => a.path)
      = st.log.map (fun a => a.path) ++ ps := by
  induction ps generalizing st with
  | nil => simp
  | cons p ps ih => rw [List.foldl_cons, ih, removeMember_log_paths]; simp

theorem removeDuplicatesRun_log_paths (env : RemoveEnv) (duplicates : GoMap) (w : World) :
    (removeDuplicatesRun env duplicates w).log.map (fun a => a.path) = otherMembers duplicates := by
  unfold removeDuplicatesRun
  rw [removeFold_flatten, removeFold_log_paths]
  simp

theorem logInv_removeMember (env : RemoveEnv) (st : RemoveState) (p : String)
    (hl : LogInv env st.log) : LogInv env (removeMember env st p).log := by
  have hcase : (removeMember env st p).log = st.log ++
      [⟨p, env.removeOk st.log.length,
        env.removeOk st.log.length && env.deleteOk st.log.length⟩] := by
    by_cases hok : env.removeOk st.log.length = true
    · rw [removeMember_ok env st p hok]; simp [hok]
    · rw [removeMember_fail env st p hok]; simp [hok]
  rw [hcase]
  intro i a hi
  rcases Nat.lt_trichotomy i st.log.length with hlt | heq | hgt
  · rw [List.getElem?_append_left hlt] at hi
    exact hl i a hi
  · subst heq
    simp at hi
    subst hi
    exact ⟨rfl, rfl⟩
  · rw [List.getElem?_eq_none (by simp; omega)] at hi
    cases hi

theorem logInv_fold (env : RemoveEnv) (ps : List String) (st : RemoveState)
    (hl : LogInv env st.log) : LogInv env (ps.foldl (removeMember env) st).log := by
  induction ps generalizing st with
  | nil => exact hl
  | cons p ps ih => exact ih _ (logInv_removeMember env st p hl)

theorem removeDuplicatesRun_logInv (env : RemoveEnv) (duplicates : GoMap) (w : World) :
    LogInv env (removeDuplicatesRun env duplicates w).log := by
  unfold removeDuplicatesRun
  rw [removeFold_flatten]
  refine logInv_fold env _ _ ?_
  intro i a hi
  simp at hi

/-- Frame of a run: a path with no successful attempt keeps its records. -/
theorem removeDuplicatesRun_frame (env : RemoveEnv) (duplicates : GoMap) (w : World) (p : String)
    (hp : p ∉ removedPaths (removeDuplicatesRun env duplicates w).log) :
    (removeDuplicatesRun env duplicates w).w.db.filter (fun f => f.Path = p)
      = w.db.filter (fun f => f.Path = p) := by
  obtain ⟨hdb, -, hlog⟩ := removeDuplicatesRun_inv env duplicates w
  rw [hdb, List.filter_filter]
  apply List.filter_congr
  intro f _
  by_cases hf : f.Path = p
  · subst hf
    have : f.Path ∉ deletedPaths (removeDuplicatesRun env duplicates w).log := by
      intro hd
      apply hp
      simp only [deletedPaths, removedPaths, List.mem_map, List.mem_filter] at hd ⊢
      obtain ⟨a, ⟨ha, hda⟩, hpa⟩ := hd
      exact ⟨a, ⟨ha, hlog a ha hda⟩, hpa⟩
    simp [this]
  · simp [hf]

/-- A recorded link whose target is gone: `os.Stat` fails on `/r/l`, the
removal goes through, the record is deleted and the removal is counted. -/
theorem removeDuplicates_dangling_link :
    danglingWorld.fs "/r/l" = none ∧
    (findDuplicatesLoaded danglingWorld.fs (loadByRoot danglingWorld.db "/r")).1
      = [("h1", ["/r/a", "/r/l"])] ∧
    removeDuplicates allowAll [("h1", ["/r/a", "/r/l"])] danglingWorld = 1 ∧
    (removeDuplicatesRun allowAll [("h1", ["/r/a", "/r/l"])] danglingWorld).w.db
      = [⟨1, "/r/a", "other", "h1", "", 10, ""⟩] := by
  decide

/-- Claim C3, at the failing input.  The file `/r/p`, recorded twice with the
same hash, forms the group `[/r/p, /r/p]`; `removeDuplicates` then removes the
group's first path from the filesystem and deletes its records, and reports one
removed duplicate. -/
theorem removeDuplicates_first_member_deleted :
    (findDuplicatesLoaded twiceWorld.fs (loadByRoot twiceWorld.db "/r")).1
      = [("h1", ["/r/p", "/r/p"])] ∧
    twiceWorld.fs "/r/p" = some 10 ∧
    (removeDuplicatesRun allowAll [("h1", ["/r/p", "/r/p"])] twiceWorld).w.fs "/r/p" = none ∧
    (removeDuplicatesRun allowAll [("h1", ["/r/p", "/r/p"])] twiceWorld).w.db = [] ∧
    removeDuplicates allowAll [("h1", ["/r/p", "/r/p"])] twiceWorld = 1 := by
  decide

/-- Claim C4.  For every groups map and every outcome of the individual
`os.Remove` calls and record deletions, `removeDuplicates` returns the number
of attempts on non-first group members whose `os.Remove` returned nil; it makes
one attempt for every non-first member of every group, in order, whatever the
outcomes of the earlier attempts; each attempt removes exactly when its
`os.Remove` returns nil, whatever `os.Stat` answers for the path; a successful
attempt adds one to the count; a failed attempt changes neither the count nor
the filesystem nor the table; and a path no attempt removed keeps its records. -/
theorem removeDuplicates_counts_successes (env : RemoveEnv) (duplicates : GoMap) (w : World) :
    removeDuplicates env duplicates w
      = ((removeDuplicatesRun env duplicates w).log.filter (fun a => a.removed)).length ∧
    (removeDuplicatesRun env duplicates w).log.map (fun a => a.path) = otherMembers duplicates ∧
    LogInv env (removeDuplicatesRun env duplicates w).log ∧
    (∀ (st : RemoveState) (p : String), env.removeOk st.log.length = true →
        (removeMember env st p).removed = st.removed + 1 ∧
        (removeMember env st p).w.fs p = none ∧
        (removeMember env st p).w.db
          = if env.deleteOk st.log.length then st.w.db.filter (fun f => f.Path ≠ p)
            else st.w.db) ∧
    (∀ (st : RemoveState) (p : String), env.removeOk st.log.length = false →
        (removeMember env st p).removed = st.removed ∧
        (removeMember env st p).w.fs = st.w.fs ∧ (removeMember env st p).w.db = st.w.db) ∧
    (∀ p, p ∉ removedPaths (removeDuplicatesRun env duplicates w).log →
      (removeDuplicatesRun env duplicates w).w.db.filter (fun f => f.Path = p)
        = w.db.filter (fun f => f.Path = p)) := by
  refine ⟨(removeDuplicatesRun_inv env duplicates w).2.1,
    removeDuplicatesRun_log_paths env duplicates w,
    removeDuplicatesRun_logInv env duplicates w, ?_, ?_,
    fun p hp => removeDuplicatesRun_frame env duplicates w p hp⟩
  · intro st p hok
    rw [removeMember_ok env st p hok]
    exact ⟨rfl, by simp, rfl⟩
  · intro st p hfail
    rw [removeMember_fail env st p (by simp [hfail])]
    exact ⟨rfl, rfl, rfl⟩

/-! ## Running `findDuplicates` again after `removeDuplicates` -/

theorem loadByRoot_filter (db : List File) (rootPath : String) (keep : File → Bool) :
    loadByRoot (db.filter keep) rootPath = (loadByRoot db rootPath).filter keep := by
  unfold loadByRoot
  rw [List.filter_filter, List.filter_filter]
  apply List.filter_congr
  intro f _
  exact Bool.and_comm _ _

theorem mem_otherMembers (duplicates : GoMap) (p : String) :
    p ∈ otherMembers duplicates ↔ ∃ e ∈ duplicates, p ∈ e.2.drop 1 := by
  simp [otherMembers, List.mem_flatMap]

/-- Once the records of all non-first members are gone, at most one loaded
record is left for each hash. -/
theorem survivors_le_one (stat : String → Option Int) (files : List File) (keep : File → Bool)
    (hgone : ∀ f ∈ files, f.Path ∈ otherMembers (findDuplicatesLoaded stat files).1 → keep f = false)
    (h : String) :
    ((files.filter keep).filter (fun f => f.Hash = h)).length ≤ 1 := by
  have hcomm : (files.filter keep).filter (fun f => decide (f.Hash = h))
      = (files.filter (fun f => decide (f.Hash = h))).filter keep := by
    rw [List.filter_filter, List.filter_filter]
    apply List.filter_congr
    intro f _
    exact Bool.and_comm _ _
  rw [hcomm]
  by_cases hlen : 2 ≤ (files.filter (fun f => decide (f.Hash = h))).length
  · have hmem : (h, (files.filter (fun f => decide (f.Hash = h))).map (fun f => f.Path))
        ∈ (findDuplicatesLoaded stat files).1 :=
      (mem_findDuplicatesLoaded stat files h _).2 ⟨rfl, by simpa using hlen⟩
    have hsplit := List.take_append_drop 1 (files.filter (fun f => decide (f.Hash = h)))
    rw [← hsplit, List.filter_append]
    have hdrop : ((files.filter (fun f => decide (f.Hash = h))).drop 1).filter keep = [] := by
      rw [List.filter_eq_nil_iff]
      intro f hf
      have hfiles : f ∈ files := (List.mem_filter.1 (List.mem_of_mem_drop hf)).1
      have hpath : f.Path ∈ otherMembers (findDuplicatesLoaded stat files).1 := by
        rw [mem_otherMembers]
        refine ⟨_, hmem, ?_⟩
        simp only [← List.map_drop]
        exact List.mem_map_of_mem _ hf
      simp [hgone f hfiles hpath]
    rw [hdrop, List.append_nil]
    calc ((List.take 1 (files.filter (fun f => decide (f.Hash = h)))).filter keep).length
        ≤ (List.take 1 (files.filter (fun f => decide (f.Hash = h)))).length :=
          List.length_filter_le _ _
      _ ≤ 1 := by simp
  · calc ((files.filter (fun f => decide (f.Hash = h))).filter keep).length
        ≤ (files.filter (fun f => decide (f.Hash = h))).length := List.length_filter_le _ _
      _ ≤ 1 := by omega

theorem findDuplicatesLoaded_eq_nil (stat : String → Option Int) (files : List File)
    (hone : ∀ h, (files.filter (fun f => f.Hash = h)).length ≤ 1) :
    findDuplicatesLoaded stat files = ([], 0) := by
  have hfst : (findDuplicatesLoaded stat files).1 = [] := by
    rw [findDuplicatesLoaded_fst, List.filter_eq_nil_iff]
    rintro ⟨h, v⟩ he
    have := ((mem_iff_lookup _ (groupByHash_nodup files) h v).1 he).2
    rw [groupByHash_get] at this
    have hl := hone h
    subst this
    simp only [List.length_map, gt_iff_lt, decide_eq_true_eq, not_lt]
    exact hl
  have hsnd := findDuplicatesLoaded_snd stat files
  rw [hfst] at hsnd
  exact Prod.ext hfst (by rw [hsnd]; simp [reclaimable, wrapInt64])

/-- Claim C5, against the claim as stated.  When the operating system refuses
the removals, `removeDuplicates` changes nothing and the second
`findDuplicates` returns the same group again. -/
theorem dedup_not_idempotent_counterexample :
    findDuplicates none pairWorld "/r" = .ok ([("h1", ["/r/a", "/r/b"])], 10) ∧
    removeDuplicates denyAll [("h1", ["/r/a", "/r/b"])] pairWorld = 0 ∧
    findDuplicates none (removeDuplicatesRun denyAll [("h1", ["/r/a", "/r/b"])] pairWorld).w "/r"
      = .ok ([("h1", ["/r/a", "/r/b"])], 10) := by
  exact ⟨rfl, by decide, rfl⟩

/-- Claim C5, amended.  Let `removeDuplicates` range in any order `visited`
over the groups that `findDuplicates` returned for the root.  If, for every
non-first member of every group, some attempt removed the file and deleted its
records, then no hash is carried by two records loaded for the root afterwards,
and `findDuplicates` on the same root returns zero groups (and zero reclaimable
bytes). -/
theorem findDuplicates_after_removeDuplicates (env : RemoveEnv) (w : World) (rootPath : String)
    (visited : GoMap)
    (hperm : visited.Perm (findDuplicatesLoaded w.fs (loadByRoot w.db rootPath)).1)
    (hall : ∀ p ∈ otherMembers visited,
      p ∈ deletedPaths (removeDuplicatesRun env visited w).log) :
    findDuplicates none (removeDuplicatesRun env visited w).w rootPath = .ok ([], 0) ∧
    (∀ h : String,
      ((loadByRoot (removeDuplicatesRun env visited w).w.db rootPath).filter
        (fun f => f.Hash = h)).length ≤ 1) := by
  have hdb := (removeDuplicatesRun_inv env visited w).1
  have hone : ∀ h : String,
      ((loadByRoot (removeDuplicatesRun env visited w).w.db rootPath).filter
        (fun f => f.Hash = h)).length ≤ 1 := by
    intro h
    rw [hdb, loadByRoot_filter]
    apply survivors_le_one w.fs
    intro f _ hf
    have hv : f.Path ∈ otherMembers visited := by
      rw [mem_otherMembers] at hf ⊢
      obtain ⟨e, he, hp⟩ := hf
      exact ⟨e, hperm.mem_iff.2 he, hp⟩
    simp [hall f.Path hv]
  refine ⟨?_, hone⟩
  simp only [findDuplicates]
  congr 1
  exact findDuplicatesLoaded_eq_nil _ _ hone

/-- Witness for `findDuplicates_after_removeDuplicates`: two recorded copies
`/r/a`, `/r/b`, every removal going through. -/
theorem findDuplicates_after_removeDuplicates_witness :
    findDuplicates none
      (removeDuplicatesRun allowAll
        (findDuplicatesLoaded pairWorld.fs (loadByRoot pairWorld.db "/r")).1 pairWorld).w "/r"
      = .ok ([], 0) :=
  (findDuplicates_after_removeDuplicates allowAll pairWorld "/r"
    (findDuplicatesLoaded pairWorld.fs (loadByRoot pairWorld.db "/r")).1
    (List.Perm.refl _) (by decide)).1

/-! ## `processFile` -/

theorem processFile_err_none_iff (c : Calls) (path : String) (s : Sink) :
    (processFile c path s).err = none ↔ c.allOk = true := by
  unfold processFile Calls.allOk
  cases c.stat <;> cases c.hash <;> cases c.createErr <;> cases c.addErr <;>
    cases c.waitErr <;> cases c.commitErr <;> simp

theorem processFile_ok (c : Calls) (path : String) (s : Sink) (h : c.allOk = true) :
    ∃ file : File, file.ID = s.store.nextID ∧ file.Path = path ∧
      (processFile c path s).sink.store
        = { rows := s.store.rows ++ [file], nextID := s.store.nextID + 1 } ∧
      (processFile c path s).sink.index
        = if c.taskApplied then addDocument s.index (docOf file) else s.index := by
  unfold Calls.allOk at h
  unfold processFile
  cases hs : c.stat <;> cases hh : c.hash <;> cases hc : c.createErr <;> cases ha : c.addErr <;>
    cases hw : c.waitErr <;> cases hm : c.commitErr <;> simp [hs, hh, hc, ha, hw, hm] at h ⊢
  exact ⟨_, rfl, rfl, rfl, rfl⟩

theorem processFile_store_of_err (c : Calls) (path : String) (s : Sink)
    (h : (processFile c path s).err ≠ none) : (processFile c path s).sink.store = s.store := by
  unfold processFile at h ⊢
  cases hs : c.stat <;> cases hh : c.hash <;> cases hc : c.createErr <;> cases ha : c.addErr <;>
    cases hw : c.waitErr <;> cases hm : c.commitErr <;> simp [hs, hh, hc, ha, hw, hm] at h ⊢

theorem processFile_not_submitted (c : Calls) (path : String) (s : Sink)
    (h : c.submitted = false) : (processFile c path s).sink = s := by
  unfold Calls.submitted at h
  unfold processFile
  cases hs : c.stat <;> cases hh : c.hash <;> cases hc : c.createErr <;> cases ha : c.addErr <;>
    simp [hs, hh, hc, ha] at h ⊢

theorem processFile_index_of_submitted (c : Calls) (path : String) (s : Sink)
    (h : c.submitted = true) (ha : c.taskApplied = true) :
    ∃ d ∈ (processFile c path s).sink.index, d.id = s.store.nextID ∧ d.path = path := by
  unfold Calls.submitted at h
  unfold processFile
  cases hs : c.stat <;> cases hh : c.hash <;> cases hc : c.createErr <;> cases hd : c.addErr <;>
    cases hw : c.waitErr <;> cases hm : c.commitErr <;>
    simp [hs, hh, hc, hd, hw, hm, ha, addDocument, docOf] at h ⊢ <;>
    exact ⟨_, Or.inr rfl, rfl, rfl⟩

theorem paired_after_ok (s : Sink) (file : File) (hid : file.ID = s.store.nextID)
    (hfresh : ∀ f ∈ s.store.rows, f.ID < s.store.nextID) (hp : Paired s) :
    Paired { store := { rows := s.store.rows ++ [file], nextID := s.store.nextID + 1 },
             index := addDocument s.index (docOf file) } := by
  intro id hash
  simp only [addDocument, List.mem_append, List.mem_singleton, List.mem_filter]
  constructor
  · rintro ⟨f, hf | hf, h1, h2⟩
    · obtain ⟨d, hd, hd1, hd2⟩ := (hp id hash).1 ⟨f, hf, h1, h2⟩
      refine ⟨d, Or.inl ⟨hd, ?_⟩, hd1, hd2⟩
      have := hfresh f hf
      simp [docOf, hd1, hid]
      omega
    · subst hf
      exact ⟨docOf f, Or.inr rfl, h1, h2⟩
  · rintro ⟨d, hd | hd, h1, h2⟩
    · obtain ⟨f, hf, hf1, hf2⟩ := (hp id hash).2 ⟨d, hd.1, h1, h2⟩
      exact ⟨f, Or.inl hf, hf1, hf2⟩
    · subst hd
      exact ⟨file, Or.inr rfl, h1, h2⟩

/-- Claim C7, against the claim as stated.  When the insert, the submission and
the wait succeed, the index applies the task and the commit fails,
`processFile` returns the commit error, the store holds no record of the file,
and the index holds its document. -/
theorem pairing_counterexample :
    (processFile commitFails "/r/a" emptySink).err = some "database is locked" ∧
    (processFile commitFails "/r/a" emptySink).sink.store.rows = [] ∧
    (processFile commitFails "/r/a" emptySink).sink.index
      = [⟨1, "/r/a", "documents", "h1", ""⟩] ∧
    Paired emptySink ∧
    ¬ Paired (processFile commitFails "/r/a" emptySink).sink := by
  refine ⟨by decide, by decide, by decide, ?_, ?_⟩
  · intro id hash
    simp [emptySink]
  · intro hp
    have h := (hp 1 "h1").2 ⟨⟨1, "/r/a", "documents", "h1", ""⟩, by decide, rfl, rfl⟩
    obtain ⟨f, hf, -⟩ := h
    have hrows : (processFile commitFails "/r/a" emptySink).sink.store.rows = [] := by decide
    rw [hrows] at hf
    cases hf

/-- A run in which every call returns no error and the task ends as failed:
`processFile` returns nil, the record is committed and the index holds no
document for it. -/
theorem processFile_task_failed :
    (processFile taskFails "/r/a" emptySink).err = none ∧
    (processFile taskFails "/r/a" emptySink).sink.store.rows
      = [⟨1, "/r/a", "documents", "h1", "", 10, "application/pdf"⟩] ∧
    (processFile taskFails "/r/a" emptySink).sink.index = [] := by
  decide

/-- Claim C7, amended.  `processFile` returns nil exactly when the stat, the
hashing, the store insert, the index submission, the wait and the commit all
return no error, and then the store holds the new FileRecord; the index holds
its document, with the same id and hash, when the index applied the task.
When it returns an error the store is as before the call; the index is as
before too when the run did not get as far as a successful submission; after
a failed wait or a failed commit a document the index applied is not
withdrawn.  So a run that returns nil with its task applied, or returns an
error and leaves the index unchanged, keeps records and documents paired. -/
theorem processFile_pairing (c : Calls) (path : String) (s : Sink) :
    ((processFile c path s).err = none ↔ c.allOk = true) ∧
    ((processFile c path s).err = none →
      ∃ file : File, file.ID = s.store.nextID ∧ file.Path = path ∧
        (processFile c path s).sink.store.rows = s.store.rows ++ [file] ∧
        (c.taskApplied = true → docOf file ∈ (processFile c path s).sink.index)) ∧
    ((processFile c path s).err ≠ none → (processFile c path s).sink.store = s.store) ∧
    (c.submitted = false → (processFile c path s).sink = s) ∧
    ((processFile c path s).err ≠ none → c.submitted = true → c.taskApplied = true →
      ∃ d ∈ (processFile c path s).sink.index, d.id = s.store.nextID ∧ d.path = path) ∧
    ((∀ f ∈ s.store.rows, f.ID < s.store.nextID) → Paired s →
      (((processFile c path s).err = none ∧ c.taskApplied = true) ∨
        ((processFile c path s).err ≠ none ∧ (processFile c path s).sink.index = s.index)) →
      Paired (processFile c path s).sink) := by
  refine ⟨processFile_err_none_iff c path s, fun h => ?_, processFile_store_of_err c path s,
    processFile_not_submitted c path s,
    fun _ hsub ha => processFile_index_of_submitted c path s hsub ha, fun hfresh hp h => ?_⟩
  · obtain ⟨file, h1, h2, h3, h4⟩ :=
      processFile_ok c path s ((processFile_err_none_iff c path s).1 h)
    exact ⟨file, h1, h2, by rw [h3], fun ha => by rw [h4, ha]; simp [addDocument]⟩
  · rcases h with ⟨herr, ha⟩ | ⟨herr, hidx⟩
    · obtain ⟨file, h1, -, h3, h4⟩ :=
        processFile_ok c path s ((processFile_err_none_iff c path s).1 herr)
      have := paired_after_ok s file h1 hfresh hp
      intro id hash
      rw [h3, h4, ha]
      exact this id hash
    · have hst := processFile_store_of_err c path s herr
      intro id hash
      rw [hst, hidx]
      exact hp id hash

/-- Witness for `processFile_pairing`: a run in which every call succeeds and
the task is applied, on the empty sink, leaves the record and its document
paired. -/
theorem processFile_pairing_witness :
    Paired (processFile (okCalls "h1") "/r/a" emptySink).sink :=
  (processFile_pairing (okCalls "h1") "/r/a" emptySink).2.2.2.2.2
    (by decide) (by intro id hash; simp [emptySink]) (Or.inl ⟨by decide, by decide⟩)

/-- Claim C8.  When `processFile` has reached the index submission (stat,
hashing and store insert succeeded) and `AddDocuments` or `WaitForTask` returns
an error, it returns an error, rolls the transaction back exactly once, and
leaves the store as it was before the call. -/
theorem processFile_rollback (c : Calls) (path : String) (s : Sink) (size : Int) (hash : String)
    (hstat : c.stat = .ok size) (hhash : c.hash = .ok hash) (hcreate : c.createErr = none)
    (hfail : c.addErr ≠ none ∨ c.waitErr ≠ none) :
    (processFile c path s).err ≠ none ∧
    (processFile c path s).tx.count TxOp.rollback = 1 ∧
    (processFile c path s).tx = [TxOp.begin, TxOp.create, TxOp.rollback] ∧
    (processFile c path s).sink.store = s.store := by
  unfold processFile
  cases ha : c.addErr <;> cases hw : c.waitErr <;>
    simp [hstat, hhash, hcreate, ha, hw] at hfail ⊢

/-- Witness for `processFile_rollback`: the index refuses the submission. -/
theorem processFile_rollback_witness :
    (processFile submitFails "/r/a" emptySink).err ≠ none ∧
    (processFile submitFails "/r/a" emptySink).tx.count TxOp.rollback = 1 ∧
    (processFile submitFails "/r/a" emptySink).tx = [TxOp.begin, TxOp.create, TxOp.rollback] ∧
    (processFile submitFails "/r/a" emptySink).sink.store = emptySink.store :=
  processFile_rollback submitFails "/r/a" emptySink 10 "h1" rfl rfl rfl (Or.inl (by decide))

theorem processAll_rows (calls : List (Calls × String)) (s : Sink)
    (hok : ∀ cp ∈ calls, cp.1.allOk = true) :
    ∃ added : List File,
      (processAll calls s).store.rows = s.store.rows ++ added ∧
      (processAll calls s).store.nextID = s.store.nextID + calls.length ∧
      added.map (fun f => f.Path) = calls.map (fun cp => cp.2) ∧
      added.map (fun f => f.ID) = List.range' s.store.nextID calls.length := by
  induction calls generalizing s with
  | nil => exact ⟨[], by simp [processAll], by simp [processAll], rfl, rfl⟩
  | cons cp rest ih =>
    obtain ⟨file, h1, h2, h3, -⟩ := processFile_ok cp.1 cp.2 s (hok cp (by simp))
    obtain ⟨added, a1, a2, a3, a4⟩ :=
      ih (processFile cp.1 cp.2 s).sink (fun x hx => hok x (by simp [hx]))
    refine ⟨file :: added, ?_, ?_, ?_, ?_⟩
    · show (processAll rest (processFile cp.1 cp.2 s).sink).store.rows = _
      rw [a1, h3]; simp
    · show (processAll rest (processFile cp.1 cp.2 s).sink).store.nextID = _
      rw [a2, h3]; simp; omega
    · simp [a3, h2]
    · rw [h3] at a4
      simp [a4, h1, List.range'_succ]

/-- Claim C9, against the claim as stated.  Two successful `processFile` calls
on the path `/r/a`, the second after the content changed, leave two FileRecords
with that path; the first still carries the old hash. -/
theorem one_record_per_path_counterexample :
    (processFile (okCalls "h1") "/r/a" emptySink).err = none ∧
    (processFile (okCalls "h2") "/r/a" (processFile (okCalls "h1") "/r/a" emptySink).sink).err
      = none ∧
    (processAll [(okCalls "h1", "/r/a"), (okCalls "h2", "/r/a")] emptySink).store.rows
      = [⟨1, "/r/a", "documents", "h1", "", 10, "application/pdf"⟩,
         ⟨2, "/r/a", "documents", "h2", "", 10, "application/pdf"⟩] := by
  decide

/-- Claim C9, amended.  Every successful `processFile` call inserts one new
FileRecord under a fresh id and leaves the records already stored unchanged:
after a sequence of successful calls the store holds its earlier records
followed by one record per call, in call order, with the paths of the calls and
consecutive ids; so it holds as many more records of a path as there were calls
on that path. -/
theorem processAll_one_record_per_call (calls : List (Calls × String)) (s : Sink)
    (hok : ∀ cp ∈ calls, cp.1.allOk = true) :
    (∃ added : List File,
      (processAll calls s).store.rows = s.store.rows ++ added ∧
      added.map (fun f => f.Path) = calls.map (fun cp => cp.2) ∧
      added.map (fun f => f.ID) = List.range' s.store.nextID calls.length) ∧
    (∀ p : String,
      ((processAll calls s).store.rows.filter (fun f => f.Path = p)).length
        = (s.store.rows.filter (fun f => f.Path = p)).length
          + (calls.filter (fun cp => cp.2 = p)).length) := by
  obtain ⟨added, a1, -, a3, a4⟩ := processAll_rows calls s hok
  refine ⟨⟨added, a1, a3, a4⟩, fun p => ?_⟩
  rw [a1, List.filter_append, List.length_append]
  congr 1
  have e1 : (added.filter (fun f => decide (f.Path = p))).length
      = ((added.map (fun f => f.Path)).filter (fun q => decide (q = p))).length := by
    rw [List.filter_map, List.length_map]; rfl
  have e2 : (calls.filter (fun cp => decide (cp.2 = p))).length
      = ((calls.map (fun cp => cp.2)).filter (fun q => decide (q = p))).length := by
    rw [List.filter_map, List.length_map]; rfl
  rw [e1, e2, a3]

/-- Witness for `processAll_one_record_per_call`: the path `/r/a` processed twice. -/
theorem processAll_one_record_per_call_witness :
    ((processAll [(okCalls "h1", "/r/a"), (okCalls "h2", "/r/a")] emptySink).store.rows.filter
        (fun f => f.Path = "/r/a")).length
      = (emptySink.store.rows.filter (fun f => f.Path = "/r/a")).length
        + ([(okCalls "h1", "/r/a"), (okCalls "h2", "/r/a")].filter
            (fun cp => cp.2 = "/r/a")).length :=
  (processAll_one_record_per_call [(okCalls "h1", "/r/a"), (okCalls "h2", "/r/a")] emptySink
    (by decide)).2 "/r/a"

/-! ## The change monitor -/

theorem settle_pos : 0 < settle := by decide

theorem step_event_file (cat : String → Option String) (m : Monitor) (name : String) (op : Op)
    (now : Int) (hs : m.stopped = false) (hop : (op.create || op.write) = true) :
    step cat m (.event name op (some false) now)
      = { m with pendingFiles := mapSet m.pendingFiles name now } := by
  simp [step, hs, hop]

theorem step_tick (cat : String → Option String) (m : Monitor) (now : Int)
    (hs : m.stopped = false) : step cat m (.tick now) = onTick cat m now := by
  simp [step, hs]

theorem step_watchErr (cat : String → Option String) (m : Monitor) (e : String)
    (hs : m.stopped = false) :
    step cat m (.watchErr e) = { m with printed := m.printed ++ ["Watcher error: " ++ e] } := by
  simp [step, hs]

theorem onTick_idle (cat : String → Option String) (m : Monitor) (now : Int)
    (hp : m.pendingFiles = []) : onTick cat m now = m := by
  simp [onTick, hp]

theorem onTick_settled (cat : String → Option String) (m : Monitor) (now : Int) (path : String)
    (l : Int) (hp : m.pendingFiles = [(path, l)]) (hsettled : settle ≤ now - l) :
    (onTick cat m now).pendingFiles = [] ∧
    (onTick cat m now).processed = m.processed ++ [(path, now)] ∧
    (onTick cat m now).stopped = m.stopped := by
  simp [onTick, hp, hsettled]

theorem onTick_dirty (cat : String → Option String) (m : Monitor) (now : Int) (path : String)
    (l : Int) (hp : m.pendingFiles = [(path, l)]) (hdirty : now - l < settle) :
    (onTick cat m now).pendingFiles = [(path, l)] ∧
    (onTick cat m now).processed = m.processed ∧
    (onTick cat m now).stopped = m.stopped := by
  have : ¬ settle ≤ now - l := by omega
  simp [onTick, hp, this]

/-- In a burst the last event does not come before the messages seen so far. -/
theorem burst_lastEvent_ge (path : String) (msgs : List Msg) (last : Option Int) (cur t : Int)
    (hb : burst path last cur msgs = true) (hl : lastEvent msgs = some t) : cur ≤ t := by
  induction msgs generalizing last cur with
  | nil => simp [lastEvent] at hl
  | cons msg rest ih =>
    cases msg with
    | event name op stat now =>
      simp only [burst, Bool.and_eq_true, decide_eq_true_eq] at hb
      obtain ⟨⟨⟨-, hcur⟩, -⟩, hrest⟩ := hb
      simp only [lastEvent] at hl
      cases hle : lastEvent rest with
      | none => simp [hle] at hl; omega
      | some t' =>
        simp [hle] at hl
        have := ih (some now) now hrest (hl ▸ hle)
        omega
    | tick now =>
      simp only [burst, Bool.and_eq_true, decide_eq_true_eq] at hb
      have := ih last now hb.2 (by simpa [lastEvent] using hl)
      omega
    | watchErr e => exact ih last cur (by simpa [burst] using hb) (by simpa [lastEvent] using hl)
    | eventsClosed => simp [burst] at hb
    | errorsClosed => simp [burst] at hb

/-- After the path has been dispatched, a burst can only go on with ticks and
watcher errors, and none of them dispatches again. -/
theorem run_processed_phase (cat : String → Option String) (path : String) (msgs : List Msg)
    (m : Monitor) (cur l d : Int) (hs : m.stopped = false) (hp : m.pendingFiles = [])
    (hd : m.processed = [(path, d)]) (hcur : l + settle ≤ cur)
    (hb : burst path (some l) cur msgs = true) :
    (run cat msgs m).processed = [(path, d)] ∧ lastEvent msgs = none := by
  induction msgs generalizing m cur with
  | nil => exact ⟨hd, rfl⟩
  | cons msg rest ih =>
    cases msg with
    | event name op stat now =>
      simp only [burst, Bool.and_eq_true, decide_eq_true_eq] at hb
      omega
    | tick now =>
      simp only [burst, Bool.and_eq_true, decide_eq_true_eq] at hb
      have hstep : step cat m (.tick now) = m := by
        rw [step_tick cat m now hs, onTick_idle cat m now hp]
      have := ih m now hs hp hd (by omega) hb.2
      simpa [run, hstep, lastEvent] using this
    | watchErr e =>
      have := ih { m with printed := m.printed ++ ["Watcher error: " ++ e] } cur hs hp hd hcur
        (by simpa [burst] using hb)
      simpa [run, step_watchErr cat m e hs, lastEvent] using this
    | eventsClosed => simp [burst] at hb
    | errorsClosed => simp [burst] at hb

/-- While the path is pending with last event time `l`: the rest of the burst
dispatches it at most once, at a tick one settle window or more after the last
event, and exactly once when such a tick comes. -/
theorem run_dirty_phase (cat : String → Option String) (path : String) (msgs : List Msg)
    (m : Monitor) (cur l : Int) (hs : m.stopped = false) (hp : m.pendingFiles = [(path, l)])
    (hd : m.processed = []) (hcur : l ≤ cur) (hb : burst path (some l) cur msgs = true) :
    (run cat msgs m).processed.length ≤ 1 ∧
    (∀ d ∈ (run cat msgs m).processed,
      d.1 = path ∧ (lastEvent msgs).getD l + settle ≤ d.2 ∧ Msg.tick d.2 ∈ msgs) ∧
    ((∃ now, Msg.tick now ∈ msgs ∧ (lastEvent msgs).getD l + settle ≤ now) →
      (run cat msgs m).processed.length = 1) := by
  induction msgs generalizing m cur l with
  | nil => simp [run, hd]
  | cons msg rest ih =>
    cases msg with
    | event name op stat now =>
      simp only [burst, Bool.and_eq_true, decide_eq_true_eq, Bool.or_eq_true] at hb
      obtain ⟨⟨⟨⟨⟨hname, hop⟩, hstat⟩, hnow⟩, -⟩, hrest⟩ := hb
      subst hname hstat
      have hstep := step_event_file cat m name op now hs (by simpa using hop)
      have hp' : (step cat m (.event name op (some false) now)).pendingFiles = [(name, now)] := by
        rw [hstep]; simp [hp, mapSet]
      have hd' : (step cat m (.event name op (some false) now)).processed = [] := by
        rw [hstep]; exact hd
      have hs' : (step cat m (.event name op (some false) now)).stopped = false := by
        rw [hstep]; exact hs
      obtain ⟨i1, i2, i3⟩ := ih _ now now hs' hp' hd' (le_refl _) hrest
      have hlast : (lastEvent (Msg.event name op (some false) now :: rest)).getD l
          = (lastEvent rest).getD now := by
        simp only [lastEvent]
        cases lastEvent rest <;> rfl
      rw [hlast]
      refine ⟨i1, fun d hd => ?_, fun hex => ?_⟩
      · obtain ⟨a, b, c⟩ := i2 d hd
        exact ⟨a, b, List.mem_cons_of_mem _ c⟩
      · obtain ⟨t, ht, hle⟩ := hex
        simp only [List.mem_cons] at ht
        rcases ht with ht | ht
        · cases ht
        · exact i3 ⟨t, ht, hle⟩
    | tick now =>
      simp only [burst, Bool.and_eq_true, decide_eq_true_eq] at hb
      obtain ⟨hnow, hrest⟩ := hb
      have hstep := step_tick cat m now hs
      have hlast : lastEvent (Msg.tick now :: rest) = lastEvent rest := rfl
      rw [hlast]
      by_cases hsettled : settle ≤ now - l
      · obtain ⟨o1, o2, o3⟩ := onTick_settled cat m now path l hp hsettled
        rw [hd] at o2
        obtain ⟨c1, c2⟩ := run_processed_phase cat path rest (step cat m (.tick now)) now l now
          (by rw [hstep, o3]; exact hs) (by rw [hstep]; exact o1) (by rw [hstep]; simpa using o2)
          (by omega) hrest
        have hrun : (run cat (Msg.tick now :: rest) m).processed = [(path, now)] := c1
        rw [hrun, c2]
        simp
        omega
      · have hdirty : now - l < settle := by omega
        obtain ⟨o1, o2, o3⟩ := onTick_dirty cat m now path l hp hdirty
        obtain ⟨i1, i2, i3⟩ := ih (step cat m (.tick now)) now l
          (by rw [hstep, o3]; exact hs) (by rw [hstep]; exact o1)
          (by rw [hstep, o2]; exact hd) (by omega) hrest
        refine ⟨i1, fun d hd => ?_, fun hex => ?_⟩
        · obtain ⟨a, b, c⟩ := i2 d hd
          exact ⟨a, b, List.mem_cons_of_mem _ c⟩
        · obtain ⟨t, ht, hle⟩ := hex
          simp only [List.mem_cons] at ht
          rcases ht with ht | ht
          · cases ht
            exfalso
            cases hle' : lastEvent rest with
            | none => simp [hle'] at hle; omega
            | some t' =>
              have := burst_lastEvent_ge path rest (some l) now t' hrest hle'
              simp [hle'] at hle
              have := settle_pos
              omega
          · exact i3 ⟨t, ht, hle⟩
    | watchErr e =>
      have hstep := step_watchErr cat m e hs
      obtain ⟨i1, i2, i3⟩ := ih (step cat m (.watchErr e)) cur l
        (by rw [hstep]; exact hs) (by rw [hstep]; exact hp) (by rw [hstep]; exact hd) hcur
        (by simpa [burst] using hb)
      have hlast : lastEvent (Msg.watchErr e :: rest) = lastEvent rest := rfl
      rw [hlast]
      refine ⟨i1, fun d hd => ?_, fun hex => ?_⟩
      · obtain ⟨a, b, c⟩ := i2 d hd
        exact ⟨a, b, List.mem_cons_of_mem _ c⟩
      · obtain ⟨t, ht, hle⟩ := hex
        simp only [List.mem_cons] at ht
        rcases ht with ht | ht
        · cases ht
        · exact i3 ⟨t, ht, hle⟩
    | eventsClosed => simp [burst] at hb
    | errorsClosed => simp [burst] at hb

/-- Before the first event of the burst nothing is pending and ticks do nothing. -/
theorem run_idle_phase (cat : String → Option String) (path : String) (msgs : List Msg)
    (m : Monitor) (cur t : Int) (hs : m.stopped = false) (hp : m.pendingFiles = [])
    (hd : m.processed = []) (hb : burst path none cur msgs = true)
    (hl : lastEvent msgs = some t) :
    (run cat msgs m).processed.length ≤ 1 ∧
    (∀ d ∈ (run cat msgs m).processed, d.1 = path ∧ t + settle ≤ d.2 ∧ Msg.tick d.2 ∈ msgs) ∧
    ((∃ now, Msg.tick now ∈ msgs ∧ t + settle ≤ now) →
      (run cat msgs m).processed.length = 1) := by
  induction msgs generalizing m cur with
  | nil => simp [lastEvent] at hl
  | cons msg rest ih =>
    cases msg with
    | event name op stat now =>
      simp only [burst, Bool.and_eq_true, decide_eq_true_eq, Bool.or_eq_true] at hb
      obtain ⟨⟨⟨⟨⟨hname, hop⟩, hstat⟩, hnow⟩, -⟩, hrest⟩ := hb
      subst hname hstat
      have hstep := step_event_file cat m name op now hs (by simpa using hop)
      have hp' : (step cat m (.event name op (some false) now)).pendingFiles = [(name, now)] := by
        rw [hstep]; simp [hp, mapSet]
      have hd' : (step cat m (.event name op (some false) now)).processed = [] := by
        rw [hstep]; exact hd
      have hs' : (step cat m (.event name op (some false) now)).stopped = false := by
        rw [hstep]; exact hs
      obtain ⟨i1, i2, i3⟩ := run_dirty_phase cat name rest _ now now hs' hp' hd' (le_refl _) hrest
      have hlast : (lastEvent rest).getD now = t := by
        simp only [lastEvent] at hl
        cases hle : lastEvent rest <;> simp [hle] at hl ⊢ <;> exact hl
      rw [hlast] at i2 i3
      refine ⟨i1, fun d hd => ?_, fun hex => ?_⟩
      · obtain ⟨a, b, c⟩ := i2 d hd
        exact ⟨a, b, List.mem_cons_of_mem _ c⟩
      · obtain ⟨t', ht, hle⟩ := hex
        simp only [List.mem_cons] at ht
        rcases ht with ht | ht
        · cases ht
        · exact i3 ⟨t', ht, hle⟩
    | tick now =>
      simp only [burst, Bool.and_eq_true, decide_eq_true_eq] at hb
      obtain ⟨hnow, hrest⟩ := hb
      have hstep : step cat m (.tick now) = m := by
        rw [step_tick cat m now hs, onTick_idle cat m now hp]
      have hl' : lastEvent rest = some t := hl
      obtain ⟨i1, i2, i3⟩ := ih m now hs hp hd hrest hl'
      have hrun : run cat (Msg.tick now :: rest) m = run cat rest m := by
        simp [run, hstep]
      rw [hrun]
      refine ⟨i1, fun d hd => ?_, fun hex => ?_⟩
      · obtain ⟨a, b, c⟩ := i2 d hd
        exact ⟨a, b, List.mem_cons_of_mem _ c⟩
      · obtain ⟨t', ht, hle⟩ := hex
        simp only [List.mem_cons] at ht
        rcases ht with ht | ht
        · cases ht
          exfalso
          have := burst_lastEvent_ge path rest none now t hrest hl'
          have := settle_pos
          omega
        · exact i3 ⟨t', ht, hle⟩
    | watchErr e =>
      have hstep := step_watchErr cat m e hs
      have hl' : lastEvent rest = some t := hl
      obtain ⟨i1, i2, i3⟩ := ih (step cat m (.watchErr e)) cur
        (by rw [hstep]; exact hs) (by rw [hstep]; exact hp) (by rw [hstep]; exact hd)
        (by simpa [burst] using hb) hl'
      refine ⟨i1, fun d hd => ?_, fun hex => ?_⟩
      · obtain ⟨a, b, c⟩ := i2 d hd
        exact ⟨a, b, List.mem_cons_of_mem _ c⟩
      · obtain ⟨t', ht, hle⟩ := hex
        simp only [List.mem_cons] at ht
        rcases ht with ht | ht
        · cases ht
        · exact i3 ⟨t', ht, hle⟩
    | eventsClosed => simp [burst] at hb
    | errorsClosed => simp [burst] at hb

/-- Claim C10.  For every burst of create/write events on one regular-file
path (consecutive events less than five seconds apart, ticks interleaved
anywhere, times not going back) whose last event is at time `t`, the monitor
dispatches the path at most once, only at a tick at time `t + 5s` or later, and
exactly once as soon as such a tick is among the messages. -/
theorem debounce_coalesces (categorizeFile : String → Option String) (path : String)
    (dirs : List String) (msgs : List Msg) (start t : Int)
    (hb : burst path none start msgs = true) (hl : lastEvent msgs = some t) :
    (run categorizeFile msgs (startMonitor dirs)).processed.length ≤ 1 ∧
    (∀ d ∈ (run categorizeFile msgs (startMonitor dirs)).processed,
      d.1 = path ∧ t + settle ≤ d.2 ∧ Msg.tick d.2 ∈ msgs) ∧
    ((∃ now, Msg.tick now ∈ msgs ∧ t + settle ≤ now) →
      (run categorizeFile msgs (startMonitor dirs)).processed.length = 1) :=
  run_idle_phase categorizeFile path msgs (startMonitor dirs) start t rfl rfl rfl hb hl

/-- Witness for `debounce_coalesces`: events at 0, 1 and 2 seconds and ticks at
5 and 10 seconds give exactly one call, at 10 seconds. -/
theorem debounce_coalesces_witness :
    burst "/r/a" none 0 burst012 = true ∧ lastEvent burst012 = some (2 * second) ∧
    (run (fun _ => none) burst012 (startMonitor ["/r"])).processed = [("/r/a", 10 * second)] ∧
    (run (fun _ => none) burst012 (startMonitor ["/r"])).processed.length = 1 :=
  ⟨by decide, by decide, by decide,
    (debounce_coalesces (fun _ => none) "/r/a" ["/r"] burst012 0 (2 * second)
      (by decide) (by decide)).2.2 ⟨10 * second, by decide, by decide⟩⟩

/-! ## One tick of the monitor -/

theorem onTick_fields (cat : String → Option String) (m : Monitor) (now : Int) :
    (onTick cat m now).pendingFiles
      = m.pendingFiles.filter (fun e => !decide (now - e.2 ≥ settle)) ∧
    (onTick cat m now).processed
      = m.processed ++ ((m.pendingFiles.filter (fun e => decide (now - e.2 ≥ settle))).map
          (fun e => (e.1, now))) ∧
    (onTick cat m now).watched = m.watched ∧ (onTick cat m now).stopped = m.stopped := by
  unfold onTick
  by_cases h : m.pendingFiles.length > 0
  · simp [h, List.map_map, Function.comp_def]
  · have hnil : m.pendingFiles = [] := by
      cases hp : m.pendingFiles with
      | nil => rfl
      | cons a l => simp [hp] at h
    simp [hnil]

/-- Claim C11.  One tick at time `now`, on a pending buffer with one entry per
path: the buffer keeps exactly the entries seen less than five seconds before
`now`, unchanged and in place; the paths of the other entries are dispatched to
the per-file routine, each exactly once and no other path; and buffer and
dispatches are the same whatever errors the per-file routine returns. -/
theorem tick_dispatches_settled (categorizeFile : String → Option String) (m : Monitor)
    (now : Int) (hkeys : (m.pendingFiles.map Prod.fst).Nodup) :
    (onTick categorizeFile m now).pendingFiles
      = m.pendingFiles.filter (fun e => decide (now - e.2 < settle)) ∧
    (∃ batch : List String,
      (onTick categorizeFile m now).processed = m.processed ++ batch.map (fun p => (p, now)) ∧
      batch.Nodup ∧
      (∀ p, p ∈ batch ↔ ∃ t, (p, t) ∈ m.pendingFiles ∧ settle ≤ now - t)) ∧
    (∀ other : String → Option String,
      (onTick other m now).pendingFiles = (onTick categorizeFile m now).pendingFiles ∧
      (onTick other m now).processed = (onTick categorizeFile m now).processed) := by
  obtain ⟨h1, h2, -, -⟩ := onTick_fields categorizeFile m now
  refine ⟨?_, ⟨(m.pendingFiles.filter (fun e => decide (now - e.2 ≥ settle))).map Prod.fst,
    ?_, ?_, ?_⟩, fun other => ?_⟩
  · rw [h1]
    apply List.filter_congr
    intro e _
    by_cases hs : settle ≤ now - e.2
    · have : ¬ now - e.2 < settle := by omega
      simp [hs, this]
    · have : now - e.2 < settle := by omega
      simp [hs, this]
  · rw [h2, List.map_map]
    rfl
  · exact List.Nodup.sublist (List.Sublist.map _ (List.filter_sublist _)) hkeys
  · intro p
    simp only [List.mem_map, List.mem_filter, decide_eq_true_eq, ge_iff_le]
    constructor
    · rintro ⟨⟨q, t⟩, ⟨hm, ht⟩, rfl⟩
      exact ⟨t, hm, ht⟩
    · rintro ⟨t, hm, ht⟩
      exact ⟨(p, t), ⟨hm, ht⟩, rfl⟩
  · obtain ⟨o1, o2, -, -⟩ := onTick_fields other m now
    exact ⟨by rw [o1, h1], by rw [o2, h2]⟩

/-- Witness for `tick_dispatches_settled`: at 6 seconds `/r/a`, last seen at 0
seconds, is dispatched and `/r/b`, last seen at 3 seconds, stays. -/
theorem tick_dispatches_settled_witness :
    (onTick (fun _ => some "disk error") twoPending (6 * second)).pendingFiles
      = [("/r/b", 3 * second)] ∧
    (onTick (fun _ => some "disk error") twoPending (6 * second)).processed
      = [("/r/a", 6 * second)] ∧
    (onTick (fun _ => some "disk error") twoPending (6 * second)).pendingFiles
      = twoPending.pendingFiles.filter (fun e => decide (6 * second - e.2 < settle)) :=
  ⟨by decide, by decide,
    (tick_dispatches_settled (fun _ => some "disk error") twoPending (6 * second)
      (by decide)).1⟩

/-! ## Classification -/

theorem table_on_keys :
    ∀ e ∈ extensionTable.map Prod.fst,
      (if e ∈ [".jpg", ".jpeg", ".png", ".gif", ".webp"] then "images"
        else if e ∈ [".doc", ".docx", ".pdf", ".txt", ".rtf"] then "documents"
        else if e ∈ [".mp4", ".mov", ".avi", ".mkv", ".webm"] then "videos"
        else if e ∈ [".mp3", ".wav", ".flac", ".aac"] then "audio"
        else if e ∈ [".go", ".py", ".js", ".java", ".cpp"] then "code"
        else if e ∈ [".zip", ".tar", ".gz", ".7z", ".rar"] then "archives"
        else "other") = tableCategory e := by
  decide

theorem tableCategory_of_not_key (e : String) (h : e ∉ extensionTable.map Prod.fst) :
    tableCategory e = "other" := by
  unfold tableCategory
  have : extensionTable.find? (fun x => decide (x.1 = e)) = none := by
    rw [List.find?_eq_none]
    intro x hx hxe
    apply h
    simp only [decide_eq_true_eq] at hxe
    exact hxe ▸ List.mem_map_of_mem Prod.fst hx
  rw [this]

/-- The `switch` of the fallback is the lookup in the extension table. -/
theorem fallbackClassification_eq_table (u : Char → Char) (path : String) :
    fallbackClassification u path = tableCategory (toLower u (filepathExt path)) := by
  unfold fallbackClassification
  generalize toLower u (filepathExt path) = e
  by_cases h : e ∈ extensionTable.map Prod.fst
  · exact table_on_keys e h
  · rw [tableCategory_of_not_key e h]
    have h' := h
    simp only [extensionTable, List.map_cons, List.map_nil, List.mem_cons, List.mem_nil_iff,
      or_false, not_or] at h'
    simp [h']

theorem fallbackClassification_mem (u : Char → Char) (path : String) :
    fallbackClassification u path ∈ categories := by
  unfold fallbackClassification
  simp only []
  split_ifs <;> decide

theorem validateCategory_ok (category : String) (c : String)
    (h : validateCategory category = (c, none)) : c ∈ categories := by
  unfold validateCategory at h
  split_ifs at h with hm
  · simp only [Prod.mk.injEq, and_true] at h
    subst h
    exact hm
  · simp at h

theorem validateCategory_err (c : String) :
    (validateCategory c).2 ≠ none ↔ c ∉ categories := by
  unfold validateCategory categories
  split_ifs with hm
  · exact ⟨fun h => absurd rfl h, fun h => absurd hm h⟩
  · exact ⟨fun _ => hm, fun _ => by simp⟩

theorem ClassifyFile_some (u : Char → Char) (g : GroqClient) (path : String) :
    ClassifyFile u (some g) path
      = if (GroqClient.ClassifyFile u g path).2 = none then (GroqClient.ClassifyFile u g path).1
        else fallbackClassification u path := by
  unfold ClassifyFile
  simp only []
  rcases hres : GroqClient.ClassifyFile u g path with ⟨c, e⟩
  cases e <;> simp

/-- Claim C12.  Without a client, and with a client whose call returns an
error (a failed exchange, or an answer that is not a category once lower-cased
and trimmed), `ClassifyFile` returns the category the extension table gives for
the lower-cased extension of the path, `other` when the extension is not in the
table; `report.pdf` is classified as `documents`. -/
theorem ClassifyFile_fallback :
    (∀ (u : Char → Char) (path : String),
      ClassifyFile u none path = tableCategory (toLower u (filepathExt path))) ∧
    (∀ (u : Char → Char) (g : GroqClient) (path : String),
      (GroqClient.ClassifyFile u g path).2 ≠ none →
        ClassifyFile u (some g) path = tableCategory (toLower u (filepathExt path))) ∧
    (∀ (u : Char → Char) (g : GroqClient) (path : String),
      (GroqClient.ClassifyFile u g path).2 ≠ none ↔
        ((∃ e, g.exchange path = .error e) ∨
         (∃ content, g.exchange path = .ok content ∧
           trimSpace (toLower u content) ∉ categories))) ∧
    (∀ ext : String, ext ∉ extensionTable.map Prod.fst → tableCategory ext = "other") ∧
    (∀ u : Char → Char,
      ClassifyFile u none "report.pdf" = "documents" ∧
      ClassifyFile u (some offlineClient) "report.pdf" = "documents" ∧
      ClassifyFile u (some (answeringClient "a report")) "report.pdf" = "documents") := by
  refine ⟨fun u path => fallbackClassification_eq_table u path, fun u g path h => ?_,
    fun u g path => ?_, tableCategory_of_not_key, fun u => ⟨rfl, rfl, rfl⟩⟩
  · rw [ClassifyFile_some, if_neg h, fallbackClassification_eq_table]
  · unfold GroqClient.ClassifyFile
    cases hx : g.exchange path with
    | error e => simp
    | ok content =>
      simp only [validateCategory_err]
      constructor
      · intro h
        exact Or.inr ⟨content, rfl, h⟩
      · rintro (⟨e, he⟩ | ⟨c, hc, hn⟩)
        · cases he
        · cases hc
          exact hn

/-- Claim C13.  Whatever the path, with or without a client, and however the
exchange with the API ends (any answer text, any failure), the category
`ClassifyFile` returns is one of images, documents, videos, audio, code,
archives, other. -/
theorem ClassifyFile_mem_categories (u : Char → Char) (client : Option GroqClient)
    (path : String) : ClassifyFile u client path ∈ categories := by
  cases client with
  | none => exact fallbackClassification_mem u path
  | some g =>
    rw [ClassifyFile_some]
    split_ifs with h
    · unfold GroqClient.ClassifyFile at h ⊢
      cases hx : g.exchange path with
      | error e => simp [hx] at h
      | ok content =>
        simp only [hx] at h ⊢
        exact validateCategory_ok _ _ (Prod.ext rfl h)
    · exact fallbackClassification_mem u path

/-! ## The records loaded for a root -/

theorem likeMatch_literal (root rest : List Char) :
    likeMatch (root ++ ['%']) (root ++ rest) = true := by
  induction root with
  | nil =>
    simp only [List.nil_append, likeMatch, if_true, List.any_eq_true]
    exact ⟨[], by simp, rfl⟩
  | cons p ps ih =>
    simp only [List.cons_append, likeMatch]
    by_cases hp : p = '%'
    · simp only [hp, if_true, List.any_eq_true]
      refine ⟨ps ++ rest, ?_, ih⟩
      rw [List.mem_tails]
      exact List.suffix_cons _ _
    · simp [hp, ih]

theorem startsWith_iff (root path : List Char) :
    startsWith root path = true ↔ ∃ rest, path = root ++ rest := by
  induction root generalizing path with
  | nil => simp [startsWith]
  | cons r rs ih =>
    cases path with
    | nil => simp [startsWith]
    | cons c cs =>
      simp only [startsWith, Bool.and_eq_true, decide_eq_true_eq, ih, List.cons_append,
        List.cons.injEq]
      constructor
      · rintro ⟨rfl, rest, rfl⟩
        exact ⟨rest, rfl, rfl⟩
      · rintro ⟨rest, rfl, rfl⟩
        exact ⟨rfl, rest, rfl⟩

/-- Every record whose path starts with the root is loaded. -/
theorem loadByRoot_complete (db : List File) (rootPath : String) (f : File) (hf : f ∈ db)
    (hroot : startsWith rootPath.toList f.Path.toList = true) : f ∈ loadByRoot db rootPath := by
  unfold loadByRoot
  rw [List.mem_filter]
  refine ⟨hf, ?_⟩
  obtain ⟨rest, hrest⟩ := (startsWith_iff _ _).1 hroot
  have : (rootPath ++ "%").toList = rootPath.toList ++ ['%'] := by
    simp [String.toList]
  rw [this, hrest]
  exact likeMatch_literal _ _

/-- Claim C17, at the failing input.  For the root `/data/my_files` the query
loads the record of `/data/myXfiles/a.txt`, whose path does not start with the
root, and `findDuplicates` puts it in a group with a file under the root; a
root also loads paths that differ from it in the case of ASCII letters.  In the
other direction every record whose path starts with the root is loaded. -/
theorem findDuplicates_loads_outside_root :
    startsWith "/data/my_files".toList "/data/myXfiles/a.txt".toList = false ∧
    loadByRoot underscoreWorld.db "/data/my_files" = underscoreWorld.db ∧
    findDuplicates none underscoreWorld "/data/my_files"
      = .ok ([("h1", ["/data/my_files/a.txt", "/data/myXfiles/a.txt"])], 10) ∧
    startsWith "/srv/Docs".toList "/srv/docs/b.txt".toList = false ∧
    loadByRoot [⟨3, "/srv/docs/b.txt", "documents", "h2", "", 10, "text/plain"⟩] "/srv/Docs"
      = [⟨3, "/srv/docs/b.txt", "documents", "h2", "", 10, "text/plain"⟩] ∧
    (∀ (db : List File) (rootPath : String) (f : File), f ∈ db →
      startsWith rootPath.toList f.Path.toList = true → f ∈ loadByRoot db rootPath) :=
  ⟨by decide, by decide, rfl, by decide, by decide, loadByRoot_complete⟩

/-! ## The command `deduplicate` -/

theorem deduplicateRun_dryRun (flags : DedupFlags) (initErr queryErr : Option String)
    (env : RemoveEnv) (w : World) (path : String) (h : (flags.dryRun || !flags.confirm) = true) :
    (deduplicateRun flags initErr queryErr env w path).removed = none ∧
    (deduplicateRun flags initErr queryErr env w path).w.db = w.db ∧
    (deduplicateRun flags initErr queryErr env w path).w.fs = w.fs := by
  unfold deduplicateRun
  cases initErr with
  | some e => exact ⟨rfl, rfl, rfl⟩
  | none =>
    simp only []
    cases findDuplicates queryErr w path with
    | error e => exact ⟨rfl, rfl, rfl⟩
    | ok r =>
      obtain ⟨duplicates, total⟩ := r
      simp only [h, if_true]
      split_ifs <;> exact ⟨rfl, rfl, rfl⟩

/-- Claim C18, at the failing input.  With `--confirm` as the only flag,
`dryRun` keeps its default true, so with a duplicate group found the command
prints `Run with --confirm to remove duplicates`, does not call
`removeDuplicates` and leaves both files and both records in place; the removal
needs `--dry-run=false` as well.  Whenever `dryRun` is true or `confirm` is
false, nothing is removed. -/
theorem deduplicate_confirm_alone_removes_nothing :
    parseFlags ["--confirm"] = { dryRun := true, confirm := true } ∧
    (deduplicateRun (parseFlags ["--confirm"]) none none allowAll pairWorld "/r").removed = none ∧
    (deduplicateRun (parseFlags ["--confirm"]) none none allowAll pairWorld "/r").printed
      = ["Run with --confirm to remove duplicates"] ∧
    (deduplicateRun (parseFlags ["--confirm"]) none none allowAll pairWorld "/r").w.fs "/r/b"
      = some 10 ∧
    (deduplicateRun (parseFlags ["--confirm"]) none none allowAll pairWorld "/r").w.db
      = pairWorld.db ∧
    (deduplicateRun (parseFlags ["--dry-run=false", "--confirm"]) none none allowAll pairWorld
      "/r").removed = some 1 ∧
    (deduplicateRun (parseFlags ["--dry-run=false", "--confirm"]) none none allowAll pairWorld
      "/r").w.fs "/r/b" = none ∧
    (∀ (flags : DedupFlags) (initErr queryErr : Option String) (env : RemoveEnv) (w : World)
      (path : String), (flags.dryRun || !flags.confirm) = true →
        (deduplicateRun flags initErr queryErr env w path).removed = none ∧
        (deduplicateRun flags initErr queryErr env w path).w.db = w.db ∧
        (deduplicateRun flags initErr queryErr env w path).w.fs = w.fs) :=
  ⟨by decide, by decide, by decide, by decide, by decide, by decide, by decide,
    deduplicateRun_dryRun⟩

/-! ## `uniqueTags` -/

theorem ascii_facts :
    ∀ n, n < 128 →
      asciiLower (asciiLower (Char.ofNat n)) = asciiLower (Char.ofNat n) ∧
      (asciiLower (Char.ofNat n)).toNat < 128 ∧
      isSpace (asciiLower (Char.ofNat n)) = isSpace (Char.ofNat n) := by
  decide

theorem ascii_facts_char (c : Char) (h : c.toNat < 128) :
    asciiLower (asciiLower c) = asciiLower c ∧ (asciiLower c).toNat < 128 ∧
    isSpace (asciiLower c) = isSpace c := by
  have := ascii_facts c.toNat h
  rwa [Char.ofNat_toNat] at this

theorem lowerRune_idem (u : Char → Char)
    (hidem : ∀ c : Char, 128 ≤ c.toNat → lowerRune u (u c) = u c) (c : Char) :
    lowerRune u (lowerRune u c) = lowerRune u c := by
  by_cases h : c.toNat < 128
  · obtain ⟨h1, h2, -⟩ := ascii_facts_char c h
    simp [lowerRune, h, h1, h2]
  · have := hidem c (by omega)
    simpa [lowerRune, h] using this

theorem isSpace_lowerRune (u : Char → Char)
    (hsp : ∀ c : Char, 128 ≤ c.toNat → isSpace (u c) = isSpace c) (c : Char) :
    isSpace (lowerRune u c) = isSpace c := by
  by_cases h : c.toNat < 128
  · simpa [lowerRune, h] using (ascii_facts_char c h).2.2
  · simpa [lowerRune, h] using hsp c (by omega)

theorem dropWhile_map_of_comm {f : Char → Char} {p : Char → Bool} (hp : ∀ c, p (f c) = p c)
    (l : List Char) : (l.map f).dropWhile p = (l.dropWhile p).map f := by
  induction l with
  | nil => rfl
  | cons a l ih =>
    simp only [List.map_cons, List.dropWhile_cons, hp a]
    split <;> simp [ih]

theorem dropWhile_snoc_of_not {p : Char → Bool} (l : List Char) (a : Char) (ha : p a = false) :
    (l ++ [a]).dropWhile p = l.dropWhile p ++ [a] := by
  induction l with
  | nil => simp [List.dropWhile, ha]
  | cons b l ih =>
    simp only [List.cons_append, List.dropWhile_cons]
    split <;> simp [ih]

theorem dropWhile_dropWhile (p : Char → Bool) (l : List Char) :
    (l.dropWhile p).dropWhile p = l.dropWhile p := by
  induction l with
  | nil => rfl
  | cons a l ih =>
    simp only [List.dropWhile_cons]
    cases h : p a
    · simp [List.dropWhile_cons, h]
    · simpa using ih

theorem dropWhile_head_not {p : Char → Bool} (l : List Char) (a : Char) (k : List Char)
    (h : l.dropWhile p = a :: k) : p a = false := by
  induction l with
  | nil => simp at h
  | cons b l ih =>
    rw [List.dropWhile_cons] at h
    split at h
    · exact ih h
    · rename_i hb
      simp only [List.cons.injEq] at h
      rw [← h.1]
      simpa using hb

theorem trimSpace_trimSpace (s : String) : trimSpace (trimSpace s) = trimSpace s := by
  unfold trimSpace
  congr 1
  show (((((s.toList.dropWhile isSpace).reverse.dropWhile isSpace).reverse).dropWhile
    isSpace).reverse.dropWhile isSpace).reverse = _
  cases hk : s.toList.dropWhile isSpace with
  | nil => simp
  | cons a k =>
    have ha : isSpace a = false := dropWhile_head_not _ a k hk
    have e1 : ((a :: k).reverse.dropWhile isSpace).reverse
        = a :: (k.reverse.dropWhile isSpace).reverse := by
      rw [List.reverse_cons, dropWhile_snoc_of_not _ _ ha]
      simp
    rw [e1]
    have e2 : (a :: (k.reverse.dropWhile isSpace).reverse).dropWhile isSpace
        = a :: (k.reverse.dropWhile isSpace).reverse := by
      simp [List.dropWhile_cons, ha]
    rw [e2, List.reverse_cons, List.reverse_reverse, dropWhile_snoc_of_not _ _ ha,
      dropWhile_dropWhile]
    simp

theorem trimSpace_toLower (u : Char → Char)
    (hsp : ∀ c : Char, 128 ≤ c.toNat → isSpace (u c) = isSpace c) (s : String) :
    trimSpace (toLower u s) = toLower u (trimSpace s) := by
  unfold trimSpace toLower
  congr 1
  show (((s.toList.map (lowerRune u)).dropWhile isSpace).reverse.dropWhile isSpace).reverse
    = (((s.toList.dropWhile isSpace).reverse.dropWhile isSpace).reverse).map (lowerRune u)
  rw [dropWhile_map_of_comm (isSpace_lowerRune u hsp), ← List.map_reverse,
    dropWhile_map_of_comm (isSpace_lowerRune u hsp), List.map_reverse]

theorem toLower_toLower (u : Char → Char)
    (hidem : ∀ c : Char, 128 ≤ c.toNat → lowerRune u (u c) = u c) (s : String) :
    toLower u (toLower u s) = toLower u s := by
  unfold toLower
  congr 1
  show (s.toList.map (lowerRune u)).map (lowerRune u) = s.toList.map (lowerRune u)
  rw [List.map_map]
  apply List.map_congr_left
  intro c _
  exact lowerRune_idem u hidem c

theorem normalTag_normalTag (u : Char → Char)
    (hidem : ∀ c : Char, 128 ≤ c.toNat → lowerRune u (u c) = u c)
    (hsp : ∀ c : Char, 128 ≤ c.toNat → isSpace (u c) = isSpace c) (t : String) :
    normalTag u (normalTag u t) = normalTag u t := by
  unfold normalTag
  rw [trimSpace_toLower u hsp, trimSpace_trimSpace, toLower_toLower u hidem]

theorem seenGet_mapSet (m : List (String × Bool)) (k k' : String) :
    seenGet (mapSet m k true) k' = (decide (k = k') || seenGet m k') := by
  induction m with
  | nil => simp [mapSet, seenGet]
  | cons e m ih =>
    obtain ⟨a, b⟩ := e
    by_cases hak : a = k
    · subst hak
      by_cases hk : a = k' <;> simp [mapSet, seenGet, hk]
    · by_cases hk : k = k'
      · subst hk
        simp [mapSet, seenGet, hak, ih]
      · by_cases hak' : a = k'
        · subst hak'
          simp [mapSet, seenGet, hak, hk]
        · simp [mapSet, seenGet, hak, hak', hk, ih]

theorem mem_firstOccurrences (l : List String) (x : String) :
    x ∈ firstOccurrences l ↔ x ∈ l := by
  induction l with
  | nil => simp [firstOccurrences]
  | cons a l ih =>
    simp only [firstOccurrences, List.mem_cons, List.mem_filter, ih, decide_eq_true_eq]
    by_cases hx : x = a
    · simp [hx]
    · simp [hx]

theorem firstOccurrences_nodup (l : List String) : (firstOccurrences l).Nodup := by
  induction l with
  | nil => simp [firstOccurrences]
  | cons a l ih =>
    simp only [firstOccurrences, List.nodup_cons, List.mem_filter, decide_eq_true_eq]
    exact ⟨fun h => h.2 rfl, List.Nodup.sublist (List.filter_sublist _) ih⟩

theorem firstOccurrences_of_nodup (l : List String) (h : l.Nodup) : firstOccurrences l = l := by
  induction l with
  | nil => rfl
  | cons a l ih =>
    simp only [List.nodup_cons] at h
    simp only [firstOccurrences, ih h.2, List.cons.injEq, true_and]
    rw [List.filter_eq_self]
    intro y hy
    simp only [decide_eq_true_eq]
    exact fun hya => h.1 (hya ▸ hy)

/-- The loop of `uniqueTags`, started with `seen` holding the tags already in
`unique`, appends the new normalised non-empty tags in order of first occurrence. -/
theorem uniqueFold (u : Char → Char) (tags : List String)
    (acc : List (String × Bool) × List String)
    (hseen : ∀ y, seenGet acc.1 y = true ↔ y ∈ acc.2) :
    (tags.foldl (uniqueStep u) acc).2
      = acc.2 ++ (firstOccurrences ((tags.map (normalTag u)).filter (fun x => x ≠ ""))).filter
          (fun y => decide (y ∉ acc.2)) := by
  induction tags generalizing acc with
  | nil => simp [firstOccurrences]
  | cons t ts ih =>
    rw [List.foldl_cons]
    have hstep : uniqueStep u acc t
        = if normalTag u t ≠ "" ∧ seenGet acc.1 (normalTag u t) = false then
            (mapSet acc.1 (normalTag u t) true, acc.2 ++ [normalTag u t])
          else acc := rfl
    by_cases hempty : normalTag u t = ""
    · have : uniqueStep u acc t = acc := by rw [hstep]; simp [hempty]
      rw [this, ih acc hseen]
      simp [hempty]
    · have hcons : ((t :: ts).map (normalTag u)).filter (fun x => decide (x ≠ ""))
          = normalTag u t :: (ts.map (normalTag u)).filter (fun x => decide (x ≠ "")) := by
        rw [List.map_cons, List.filter_cons_of_pos (by simpa using hempty)]
      rw [hcons]
      show _ = acc.2 ++ (normalTag u t ::
        (firstOccurrences ((ts.map (normalTag u)).filter (fun x => decide (x ≠ "")))).filter
          (fun y => decide (y ≠ normalTag u t))).filter (fun y => decide (y ∉ acc.2))
      generalize firstOccurrences ((ts.map (normalTag u)).filter (fun x => decide (x ≠ ""))) = L
        at ih ⊢
      by_cases hs : normalTag u t ∈ acc.2
      · have hs' : seenGet acc.1 (normalTag u t) = true := (hseen _).2 hs
        have : uniqueStep u acc t = acc := by rw [hstep]; simp [hs']
        rw [this, ih acc hseen]
        congr 1
        rw [List.filter_cons_of_neg (by simpa using hs), List.filter_filter]
        apply List.filter_congr
        intro y _
        by_cases hy : y = normalTag u t
        · simp [hy, hs]
        · simp [hy]
      · have hs' : seenGet acc.1 (normalTag u t) = false := by
          cases h : seenGet acc.1 (normalTag u t) with
          | false => rfl
          | true => exact absurd ((hseen _).1 h) hs
        have : uniqueStep u acc t
            = (mapSet acc.1 (normalTag u t) true, acc.2 ++ [normalTag u t]) := by
          rw [hstep]; simp [hempty, hs']
        rw [this, ih]
        · rw [List.filter_cons_of_pos (by simpa using hs), List.filter_filter]
          simp only [List.append_assoc, List.singleton_append]
          congr 2
          apply List.filter_congr
          intro y _
          by_cases hy : y = normalTag u t
          · simp [hy]
          · simp [hy]
        · intro y
          simp only [seenGet_mapSet, Bool.or_eq_true, decide_eq_true_eq, hseen, List.mem_append,
            List.mem_singleton]
          constructor
          · rintro (h | h)
            · exact Or.inr h.symm
            · exact Or.inl h
          · rintro (h | h)
            · exact Or.inr h
            · exact Or.inl h.symm

theorem uniqueTags_eq (u : Char → Char) (tags : List String) :
    uniqueTags u tags
      = firstOccurrences ((tags.map (normalTag u)).filter (fun x => x ≠ "")) := by
  unfold uniqueTags
  rw [uniqueFold u tags ([], []) (by simp [seenGet])]
  simp

theorem uniqueTags_idem (u : Char → Char)
    (hidem : ∀ c : Char, 128 ≤ c.toNat → lowerRune u (u c) = u c)
    (hsp : ∀ c : Char, 128 ≤ c.toNat → isSpace (u c) = isSpace c) (tags : List String) :
    uniqueTags u (uniqueTags u tags) = uniqueTags u tags := by
  have hfix : ∀ x ∈ uniqueTags u tags, normalTag u x = x ∧ x ≠ "" := by
    intro x hx
    rw [uniqueTags_eq, mem_firstOccurrences, List.mem_filter, List.mem_map] at hx
    obtain ⟨⟨t, -, rfl⟩, hne⟩ := hx
    exact ⟨normalTag_normalTag u hidem hsp t, by simpa using hne⟩
  have hnd : (uniqueTags u tags).Nodup := by
    rw [uniqueTags_eq]; exact firstOccurrences_nodup _
  rw [uniqueTags_eq u (uniqueTags u tags)]
  have hmap : (uniqueTags u tags).map (normalTag u) = uniqueTags u tags := by
    conv_rhs => rw [← List.map_id (uniqueTags u tags)]
    apply List.map_congr_left
    intro x hx
    exact (hfix x hx).1
  rw [hmap, List.filter_eq_self.2 (fun x hx => by simpa using (hfix x hx).2)]
  exact firstOccurrences_of_nodup _ hnd

theorem latin1Lower_facts :
    ∀ n, 0xC0 ≤ n → n ≤ 0xDE →
      (latin1Lower (Char.ofNat n)).toNat ≥ 128 ∧
      latin1Lower (latin1Lower (Char.ofNat n)) = latin1Lower (Char.ofNat n) ∧
      isSpace (latin1Lower (Char.ofNat n)) = isSpace (Char.ofNat n) := by
  decide

theorem latin1Lower_ok (c : Char) (_h : 128 ≤ c.toNat) :
    lowerRune latin1Lower (latin1Lower c) = latin1Lower c ∧
    isSpace (latin1Lower c) = isSpace c := by
  by_cases hr : 0xC0 ≤ c.toNat ∧ c.toNat ≤ 0xDE
  · have := latin1Lower_facts c.toNat hr.1 hr.2
    rw [Char.ofNat_toNat] at this
    obtain ⟨h1, h2, h3⟩ := this
    have : ¬ (latin1Lower c).toNat < 128 := by omega
    exact ⟨by simp [lowerRune, this, h2], h3⟩
  · have hc : latin1Lower c = c := by
      unfold latin1Lower
      rw [if_neg]
      intro h
      exact hr ⟨h.1, h.2.1⟩
    rw [hc]
    have : ¬ c.toNat < 128 := by omega
    exact ⟨by simp [lowerRune, this, hc], rfl⟩

/-- Claim C19.  `uniqueTags` returns the tags trimmed and lower-cased, the empty
ones left out, in order of first occurrence and with no tag repeated; and when
the case table of the Go library, outside ASCII, maps every rune to a rune it
leaves fixed and maps no rune to or from a space, `uniqueTags` is idempotent. -/
theorem uniqueTags_spec (u : Char → Char)
    (hidem : ∀ c : Char, 128 ≤ c.toNat → lowerRune u (u c) = u c)
    (hsp : ∀ c : Char, 128 ≤ c.toNat → isSpace (u c) = isSpace c) (tags : List String) :
    uniqueTags u tags
      = firstOccurrences ((tags.map (normalTag u)).filter (fun x => x ≠ "")) ∧
    (uniqueTags u tags).Nodup ∧
    (∀ x, x ∈ uniqueTags u tags ↔ x ≠ "" ∧ ∃ t ∈ tags, normalTag u t = x) ∧
    uniqueTags u (uniqueTags u tags) = uniqueTags u tags := by
  refine ⟨uniqueTags_eq u tags, ?_, fun x => ?_, uniqueTags_idem u hidem hsp tags⟩
  · rw [uniqueTags_eq]; exact firstOccurrences_nodup _
  · rw [uniqueTags_eq, mem_firstOccurrences, List.mem_filter, List.mem_map]
    simp only [ne_eq, decide_not, Bool.not_eq_true', decide_eq_false_iff_not]
    exact ⟨fun h => ⟨h.2, h.1⟩, fun h => ⟨h.2, h.1⟩⟩

/-- Witness for `uniqueTags_spec`: tags with spaces, capitals and repetitions,
under the Latin-1 case table. -/
theorem uniqueTags_spec_witness :
    uniqueTags latin1Lower [" Report ", "report", "", "  ", "É", "é", "Q3", "REPORT", "q3"]
      = ["report", "é", "q3"] ∧
    uniqueTags latin1Lower
      (uniqueTags latin1Lower [" Report ", "report", "", "  ", "É", "é", "Q3", "REPORT", "q3"])
      = uniqueTags latin1Lower [" Report ", "report", "", "  ", "É", "é", "Q3", "REPORT", "q3"] :=
  ⟨by decide,
    (uniqueTags_spec latin1Lower (fun c h => (latin1Lower_ok c h).1)
      (fun c h => (latin1Lower_ok c h).2)
      [" Report ", "report", "", "  ", "É", "é", "Q3", "REPORT", "q3"]).2.2.2⟩

/-! ## The worker pool: invariant -/

theorem filterMap_set_count {β : Type} [DecidableEq β] (f : WorkerPc → Option β)
    (ws : List WorkerPc) (i : Nat) (pc pc' : WorkerPc) (h : ws[i]? = some pc) (x : β) :
    ((ws.set i pc').filterMap f).count x + (f pc).toList.count x
      = (ws.filterMap f).count x + (f pc').toList.count x := by
  induction ws generalizing i with
  | nil => simp at h
  | cons w ws ih =>
    cases i with
    | zero =>
      simp only [List.getElem?_cons_zero, Option.some.injEq] at h
      subst h
      simp only [List.set_cons_zero, List.filterMap_cons]
      cases hw : f w <;> cases hp : f pc' <;>
        (simp [List.count_cons]; try omega)
    | succ j =>
      simp only [List.getElem?_cons_succ] at h
      have := ih j h
      simp only [List.set_cons_succ, List.filterMap_cons]
      cases hw : f w
      · simpa using this
      · simp only [List.count_cons]
        omega

theorem filterMap_set_length {β : Type} (f : WorkerPc → Option β)
    (ws : List WorkerPc) (i : Nat) (pc pc' : WorkerPc) (h : ws[i]? = some pc) :
    ((ws.set i pc').filterMap f).length + (f pc).toList.length
      = (ws.filterMap f).length + (f pc').toList.length := by
  induction ws generalizing i with
  | nil => simp at h
  | cons w ws ih =>
    cases i with
    | zero =>
      simp only [List.getElem?_cons_zero, Option.some.injEq] at h
      subst h
      simp only [List.set_cons_zero, List.filterMap_cons]
      cases hw : f w <;> cases hp : f pc' <;> simp
    | succ j =>
      simp only [List.getElem?_cons_succ] at h
      have := ih j h
      simp only [List.set_cons_succ, List.filterMap_cons]
      cases hw : f w
      · simpa using this
      · simp only [List.length_cons]
        omega

theorem mem_of_getElem?_eq {ws : List WorkerPc} {i : Nat} {pc : WorkerPc}
    (h : ws[i]? = some pc) : pc ∈ ws := by
  rw [List.getElem?_eq_some] at h
  obtain ⟨hi, rfl⟩ := h
  exact List.getElem_mem _

theorem processFile_err_eq (c : Calls) (p : String) (s s' : Sink) :
    (processFile c p s).err = (processFile c p s').err := by
  unfold processFile
  cases c.stat <;> cases c.hash <;> cases c.createErr <;> cases c.addErr <;>
    cases c.waitErr <;> cases c.commitErr <;> rfl

theorem poolInv_start (env : PoolEnv) (paths : List String) (n : Nat) (sink₀ : Sink) :
    PoolInv env paths n sink₀ (startPool n paths sink₀) := by
  have hproc : processingPaths (List.replicate n WorkerPc.receiving) = [] := by
    unfold processingPaths
    rw [List.filterMap_eq_nil_iff]
    intro a ha
    rw [List.eq_of_mem_replicate ha]
    rfl
  have hrep : reportingErrs (List.replicate n WorkerPc.receiving) = [] := by
    unfold reportingErrs
    rw [List.filterMap_eq_nil_iff]
    intro a ha
    rw [List.eq_of_mem_replicate ha]
    rfl
  have hex : exitedCount (List.replicate n WorkerPc.receiving) = 0 := by
    unfold exitedCount
    rw [List.length_eq_zero, List.filterMap_eq_nil_iff]
    intro a ha
    rw [List.eq_of_mem_replicate ha]
    rfl
  refine ⟨?_, ?_, fun _ => rfl, by simp [startPool], by simp [startPool], ?_, ?_, ?_, ?_, ?_,
    fun e he => by simp [startPool] at he⟩
  · intro x; simp [startPool, hproc, walkerTodo]
  · intro e; simp [startPool, hrep, walkerReport, walkErrDue]
  · intro pc hpc h
    simp only [startPool] at hpc
    rw [List.eq_of_mem_replicate hpc] at h
    rcases h with h | h <;> cases h
  · simp [startPool, hex]
  · simp [startPool]
  · intro r hr; simp [startPool] at hr
  · simp [startPool, processAll]

theorem exitedCount_le (ws : List WorkerPc) : exitedCount ws ≤ ws.length :=
  List.length_filterMap_le _ _

theorem all_exited_of_count (ws : List WorkerPc) (h : exitedCount ws = ws.length) :
    ∀ pc ∈ ws, pc = WorkerPc.exited := by
  induction ws with
  | nil => simp
  | cons w ws ih =>
    have hle := exitedCount_le ws
    unfold exitedCount at h hle ih
    cases w <;> simp only [List.filterMap_cons, hasExited, List.length_cons] at h <;>
      first
      | omega
      | (intro pc hpc
         rcases List.mem_cons.1 hpc with rfl | hpc
         · rfl
         · exact ih (by omega) pc hpc)

/-- Once `CategorizeFiles` has returned, every goroutine of the pool has
returned and the channel of paths is empty. -/
theorem final_of_returned {env : PoolEnv} {paths : List String} {n : Nat} {sink₀ : Sink}
    {s : Pool} (hinv : PoolInv env paths n sink₀ s) (hn : 0 < n) {r : Option String}
    (hr : s.result = some r) :
    (∀ pc ∈ s.workers, pc = WorkerPc.exited) ∧ s.walker = WalkerPc.exited ∧ s.filesChan = [] := by
  have hall : ∀ pc ∈ s.workers, pc = WorkerPc.exited := by
    apply all_exited_of_count
    rw [← hinv.done_count, (hinv.returned r hr).1, hinv.workers_len]
  have hne : s.workers ≠ [] := by
    intro h
    have := hinv.workers_len
    rw [h] at this
    simp at this
    omega
  obtain ⟨pc, hpc⟩ := List.exists_mem_of_ne_nil _ hne
  have := hinv.done_workers pc hpc (Or.inr (hall pc hpc))
  exact ⟨hall, hinv.closed_iff.1 this.1, this.2⟩

theorem stepWalker_result {env : PoolEnv} {paths : List String} {n : Nat} {sink₀ : Sink}
    {s s' : Pool} (hinv : PoolInv env paths n sink₀ s) (hn : 0 < n)
    (h : stepWalker env s = some s') : s.result = none := by
  cases hr : s.result with
  | none => rfl
  | some r =>
    have := (final_of_returned hinv hn hr).2.1
    simp [stepWalker, this] at h

theorem stepWorker_result {env : PoolEnv} {paths : List String} {n : Nat} {sink₀ : Sink}
    {s s' : Pool} {i : Nat} (hinv : PoolInv env paths n sink₀ s) (hn : 0 < n)
    (h : stepWorker env s i = some s') : s.result = none := by
  cases hr : s.result with
  | none => rfl
  | some r =>
    have hall := (final_of_returned hinv hn hr).1
    unfold stepWorker at h
    cases hi : s.workers[i]? with
    | none => simp [hi] at h
    | some pc =>
      have := hall pc (mem_of_getElem?_eq hi)
      subst this
      simp [hi] at h

theorem poolInv_stepWalker {env : PoolEnv} {paths : List String} {n : Nat} {sink₀ : Sink}
    {s s' : Pool} (hinv : PoolInv env paths n sink₀ s) (hn : 0 < n)
    (h : stepWalker env s = some s') : PoolInv env paths n sink₀ s' := by
  have hres := stepWalker_result hinv hn h
  have hnotclosed : s.walker ≠ WalkerPc.exited → s.closed = false := by
    intro hne
    cases hc : s.closed with
    | false => rfl
    | true => exact absurd (hinv.closed_iff.1 hc) hne
  have hnodone : s.walker ≠ WalkerPc.exited →
      ∀ pc ∈ s.workers, pc = WorkerPc.finishing ∨ pc = WorkerPc.exited → False := by
    intro hne pc hpc hfe
    have := (hinv.done_workers pc hpc hfe).1
    rw [hnotclosed hne] at this
    cases this
  have hpc := hinv.paths_count
  have hec := hinv.errs_count
  unfold stepWalker at h
  cases hw : s.walker with
  | walking todo =>
    have hne : s.walker ≠ WalkerPc.exited := by rw [hw]; intro h'; cases h'
    cases todo with
    | nil =>
      simp only [hw, Option.some.injEq] at h
      subst h
      refine ⟨?_, ?_, hinv.buffer, hinv.cap, ?_, ?_, hinv.done_count, hinv.workers_len,
        hinv.returned, hinv.sink_eq, ?_⟩
      rotate_right
      · intro e he
        cases hwe : env.walkErr with
        | none => simp [hwe] at he
        | some e' => simp [hwe] at he; rw [he]
      · intro x
        have := hpc x
        simp only [hw, walkerTodo] at this
        cases env.walkErr <;> simpa [walkerTodo] using this
      · intro e
        have := hec e
        simp only [hw, walkerReport, walkErrDue] at this
        cases hwe : env.walkErr with
        | none => simpa [walkerReport, walkErrDue, hwe] using this
        | some e' =>
          simp only [walkerReport, walkErrDue, hwe, Option.toList]
          simp only [List.count_nil, add_zero] at this
          omega
      · simp only [hnotclosed hne]
        cases env.walkErr <;> simp
      · intro pc hpc' hfe
        exact absurd (hnodone hne pc hpc' hfe) id
    | cons p rest =>
      simp only [hw] at h
      split_ifs at h with hlen
      simp only [Option.some.injEq] at h
      subst h
      refine ⟨?_, ?_, hinv.buffer, hinv.cap, ?_, ?_, hinv.done_count, hinv.workers_len,
        hinv.returned, hinv.sink_eq, fun e he => by cases he⟩
      · intro x
        have := hpc x
        simp only [hw, walkerTodo, List.count_cons] at this
        simp only [walkerTodo, List.count_append, List.count_cons, List.count_nil]
        omega
      · intro e
        have := hec e
        simp only [hw, walkerReport, walkErrDue] at this
        simpa [walkerReport, walkErrDue] using this
      · simp [hnotclosed hne]
      · intro pc hpc' hfe
        exact absurd (hnodone hne pc hpc' hfe) id
  | reporting e =>
    have hne : s.walker ≠ WalkerPc.exited := by rw [hw]; intro h'; cases h'
    simp only [hw] at h
    split_ifs at h with hlen
    simp only [Option.some.injEq] at h
    subst h
    refine ⟨?_, ?_, ?_, ?_, ?_, ?_, hinv.done_count, hinv.workers_len, ?_, hinv.sink_eq,
      fun e he => by cases he⟩
    · intro x
      have := hpc x
      simp only [hw, walkerTodo] at this
      simpa [walkerTodo] using this
    · intro e'
      have := hec e'
      simp only [hw, walkerReport, walkErrDue, List.count_cons, List.count_nil] at this
      simp only [walkerReport, walkErrDue, List.count_append, List.count_cons, List.count_nil]
      omega
    · intro _
      show s.errChan ++ [e] = s.reported ++ [e]
      rw [hinv.buffer hres]
    · show (s.reported ++ [e]).length ≤ errCap
      rw [← hinv.buffer hres]
      simp only [List.length_append, List.length_singleton]
      omega
    · simp [hnotclosed hne]
    · intro pc hpc' hfe
      exact absurd (hnodone hne pc hpc' hfe) id
    · intro r hr
      have : s.result = some r := hr
      rw [hres] at this
      cases this
  | closing =>
    have hne : s.walker ≠ WalkerPc.exited := by rw [hw]; intro h'; cases h'
    simp only [hw, Option.some.injEq] at h
    subst h
    refine ⟨?_, ?_, hinv.buffer, hinv.cap, ?_, ?_, hinv.done_count, hinv.workers_len,
      hinv.returned, hinv.sink_eq, fun e he => by cases he⟩
    · intro x
      have := hpc x
      simp only [hw, walkerTodo] at this
      simpa [walkerTodo] using this
    · intro e
      have := hec e
      simp only [hw, walkerReport, walkErrDue] at this
      simpa [walkerReport, walkErrDue] using this
    · simp
    · intro pc hpc' hfe
      exact absurd (hnodone hne pc hpc' hfe) id
  | exited => simp [hw] at h

theorem processAll_snoc (calls : List (Calls × String)) (c : Calls) (p : String) (s : Sink) :
    processAll (calls ++ [(c, p)]) s = (processFile c p (processAll calls s)).sink := by
  simp [processAll, List.foldl_append]

theorem poolInv_stepWorker {env : PoolEnv} {paths : List String} {n : Nat} {sink₀ : Sink}
    {s s' : Pool} {i : Nat} (hinv : PoolInv env paths n sink₀ s) (hn : 0 < n)
    (h : stepWorker env s i = some s') : PoolInv env paths n sink₀ s' := by
  have hres := stepWorker_result hinv hn h
  have hpc := hinv.paths_count
  have hec := hinv.errs_count
  have hnoret : ∀ (t : Pool), t.result = s.result → t.reported = s.reported →
      t.doneCount ≤ n → ∀ r, t.result = some r → t.doneCount = n ∧ r = t.reported.head? := by
    intro t ht _ _ r hr
    rw [ht, hres] at hr
    cases hr
  unfold stepWorker at h
  cases hi : s.workers[i]? with
  | none => simp [hi] at h
  | some pc =>
    have hmem : pc ∈ s.workers := mem_of_getElem?_eq hi
    have hset : ∀ pc', ∀ q ∈ s.workers.set i pc', q ∈ s.workers ∨ q = pc' :=
      fun pc' q hq => List.mem_or_eq_of_mem_set hq
    have hP := fun pc' x => filterMap_set_count heldPath s.workers i pc pc' hi x
    have hE := fun pc' x => filterMap_set_count heldErr s.workers i pc pc' hi x
    have hX := fun pc' => filterMap_set_length hasExited s.workers i pc pc' hi
    cases pc with
    | receiving =>
      simp only [hi] at h
      cases hfc : s.filesChan with
      | nil =>
        simp only [hfc] at h
        split_ifs at h with hc
        simp only [Option.some.injEq] at h
        subst h
        refine ⟨?_, ?_, hinv.buffer, hinv.cap, hinv.closed_iff, ?_, ?_, ?_, hinv.returned,
          hinv.sink_eq, hinv.walker_err⟩
        · intro x
          have h1 := hpc x
          have h2 := hP WorkerPc.finishing x
          simp only [heldPath, Option.toList, List.count_nil, add_zero] at h2
          simp only [processingPaths, hfc] at h1 ⊢
          rw [h2]
          exact h1
        · intro e
          have h1 := hec e
          have h2 := hE WorkerPc.finishing e
          simp only [heldErr, Option.toList, List.count_nil, add_zero] at h2
          simp only [reportingErrs] at h1 ⊢
          rw [h2]
          exact h1
        · intro q hq hfe
          rcases hset _ q hq with hq' | hq'
          · exact ⟨(hinv.done_workers q hq' hfe).1, rfl⟩
          · exact ⟨hc, rfl⟩
        · have h2 := hX WorkerPc.finishing
          simp only [hasExited, Option.toList, List.length_nil, add_zero] at h2
          show s.doneCount = exitedCount (s.workers.set i WorkerPc.finishing)
          unfold exitedCount
          rw [h2]
          exact hinv.done_count
        · show (s.workers.set i WorkerPc.finishing).length = n
          rw [List.length_set]
          exact hinv.workers_len
      | cons p rest =>
        simp only [hfc, Option.some.injEq] at h
        subst h
        refine ⟨?_, ?_, hinv.buffer, hinv.cap, hinv.closed_iff, ?_, ?_, ?_, hinv.returned,
          hinv.sink_eq, hinv.walker_err⟩
        · intro x
          have h1 := hpc x
          have h2 := hP (WorkerPc.processing p) x
          simp only [heldPath, Option.toList, List.count_nil, add_zero, List.count_cons] at h2
          simp only [processingPaths, hfc, List.count_cons] at h1 ⊢
          omega
        · intro e
          have h1 := hec e
          have h2 := hE (WorkerPc.processing p) e
          simp only [heldErr, Option.toList, List.count_nil, add_zero] at h2
          simp only [reportingErrs] at h1 ⊢
          rw [h2]
          exact h1
        · intro q hq hfe
          rcases hset _ q hq with hq' | hq'
          · have := (hinv.done_workers q hq' hfe).2
            rw [hfc] at this
            cases this
          · subst hq'
            rcases hfe with hfe | hfe <;> cases hfe
        · have h2 := hX (WorkerPc.processing p)
          simp only [hasExited, Option.toList, List.length_nil, add_zero] at h2
          show s.doneCount = exitedCount (s.workers.set i (WorkerPc.processing p))
          unfold exitedCount
          rw [h2]
          exact hinv.done_count
        · show (s.workers.set i (WorkerPc.processing p)).length = n
          rw [List.length_set]
          exact hinv.workers_len
    | processing p =>
      simp only [hi, Option.some.injEq] at h
      subst h
      have herr : (processFile (env.calls p) p s.sink).err = fileErr env p :=
        processFile_err_eq _ _ _ _
      have n1 : heldPath (afterProcess (fileErr env p)) = none := by
        cases fileErr env p <;> rfl
      have n2 : heldErr (afterProcess (fileErr env p)) = fileErr env p := by
        cases fileErr env p <;> rfl
      have n3 : hasExited (afterProcess (fileErr env p)) = none := by
        cases fileErr env p <;> rfl
      have n4 : afterProcess (fileErr env p) ≠ WorkerPc.finishing ∧
          afterProcess (fileErr env p) ≠ WorkerPc.exited := by
        cases fileErr env p <;> exact ⟨nofun, nofun⟩
      refine ⟨?_, ?_, hinv.buffer, hinv.cap, hinv.closed_iff, ?_, ?_, ?_, hinv.returned, ?_,
        hinv.walker_err⟩
      · intro x
        have h1 := hpc x
        have h2 := hP (afterProcess (fileErr env p)) x
        rw [n1] at h2
        simp only [heldPath, Option.toList, List.count_nil, add_zero, List.count_cons] at h2
        show (s.processed ++ [p]).count x
          + (processingPaths (s.workers.set i
              (afterProcess (processFile (env.calls p) p s.sink).err))).count x
          + s.filesChan.count x + (walkerTodo s.walker).count x = paths.count x
        rw [herr]
        simp only [processingPaths, List.count_append, List.count_cons, List.count_nil] at h1 ⊢
        omega
      · intro e
        have h1 := hec e
        have h2 := hE (afterProcess (fileErr env p)) e
        rw [n2] at h2
        have h5 : (heldErr (WorkerPc.processing p)).toList.count e = 0 := rfl
        rw [h5] at h2
        have h4 : ([p].filterMap (fileErr env)).count e = (fileErr env p).toList.count e := by
          cases hfe : fileErr env p <;> simp [List.filterMap_cons, hfe]
        show (s.reported).count e
          + (reportingErrs (s.workers.set i
              (afterProcess (processFile (env.calls p) p s.sink).err))).count e
          + (walkerReport s.walker).count e
            = ((s.processed ++ [p]).filterMap (fileErr env)).count e
              + (walkErrDue env s.walker).count e
        rw [herr, List.filterMap_append, List.count_append, h4]
        simp only [reportingErrs] at h1 ⊢
        omega
      · intro q hq hfe
        rcases hset _ q hq with hq' | hq'
        · exact hinv.done_workers q hq' hfe
        · exfalso
          rw [herr] at hq'
          rcases hfe with hfe | hfe
          · exact n4.1 (hq' ▸ hfe)
          · exact n4.2 (hq' ▸ hfe)
      · have h2 := hX (afterProcess (fileErr env p))
        rw [n3] at h2
        simp only [hasExited, Option.toList, List.length_nil, add_zero] at h2
        show s.doneCount = exitedCount (s.workers.set i
          (afterProcess (processFile (env.calls p) p s.sink).err))
        unfold exitedCount
        rw [herr, h2]
        exact hinv.done_count
      · show (s.workers.set i _).length = n
        rw [List.length_set]
        exact hinv.workers_len
      · show (processFile (env.calls p) p s.sink).sink
          = processAll ((s.processed ++ [p]).map (fun p => (env.calls p, p))) sink₀
        rw [List.map_append, List.map_singleton, processAll_snoc, ← hinv.sink_eq]
    | reporting e =>
      simp only [hi] at h
      split_ifs at h with hlen
      simp only [Option.some.injEq] at h
      subst h
      refine ⟨?_, ?_, ?_, ?_, hinv.closed_iff, ?_, ?_, ?_, ?_, hinv.sink_eq, hinv.walker_err⟩
      · intro x
        have h1 := hpc x
        have h2 := hP WorkerPc.receiving x
        simp only [heldPath, Option.toList, List.count_nil, add_zero] at h2
        simp only [processingPaths] at h1 ⊢
        rw [h2]
        exact h1
      · intro e'
        have h1 := hec e'
        have h2 := hE WorkerPc.receiving e'
        simp only [heldErr, Option.toList, List.count_nil, add_zero, List.count_cons] at h2
        simp only [reportingErrs, List.count_append, List.count_cons, List.count_nil] at h1 ⊢
        omega
      · intro _
        show s.errChan ++ [e] = s.reported ++ [e]
        rw [hinv.buffer hres]
      · show (s.reported ++ [e]).length ≤ errCap
        rw [← hinv.buffer hres]
        simp only [List.length_append, List.length_singleton]
        omega
      · intro q hq hfe
        rcases hset _ q hq with hq' | hq'
        · exact hinv.done_workers q hq' hfe
        · subst hq'
          rcases hfe with hfe | hfe <;> cases hfe
      · have h2 := hX WorkerPc.receiving
        simp only [hasExited, Option.toList, List.length_nil, add_zero] at h2
        show s.doneCount = exitedCount (s.workers.set i WorkerPc.receiving)
        unfold exitedCount
        rw [h2]
        exact hinv.done_count
      · show (s.workers.set i WorkerPc.receiving).length = n
        rw [List.length_set]
        exact hinv.workers_len
      · intro r hr
        have : s.result = some r := hr
        rw [hres] at this
        cases this
    | finishing =>
      simp only [hi] at h
      split_ifs at h with hlt
      simp only [Option.some.injEq] at h
      subst h
      refine ⟨?_, ?_, hinv.buffer, hinv.cap, hinv.closed_iff, ?_, ?_, ?_, ?_, hinv.sink_eq, hinv.walker_err⟩
      · intro x
        have h1 := hpc x
        have h2 := hP WorkerPc.exited x
        simp only [heldPath, Option.toList, List.count_nil, add_zero] at h2
        simp only [processingPaths] at h1 ⊢
        rw [h2]
        exact h1
      · intro e
        have h1 := hec e
        have h2 := hE WorkerPc.exited e
        simp only [heldErr, Option.toList, List.count_nil, add_zero] at h2
        simp only [reportingErrs] at h1 ⊢
        rw [h2]
        exact h1
      · intro q hq hfe
        rcases hset _ q hq with hq' | hq'
        · exact hinv.done_workers q hq' hfe
        · exact hinv.done_workers _ hmem (Or.inl rfl)
      · have h2 := hX WorkerPc.exited
        simp only [hasExited, Option.toList, List.length_nil, add_zero, List.length_singleton]
          at h2
        show s.doneCount + 1 = exitedCount (s.workers.set i WorkerPc.exited)
        unfold exitedCount
        rw [h2, hinv.done_count]
        rfl
      · show (s.workers.set i WorkerPc.exited).length = n
        rw [List.length_set]
        exact hinv.workers_len
      · intro r hr
        have : s.result = some r := hr
        rw [hres] at this
        cases this
    | exited => simp [hi] at h

theorem poolInv_stepMain {env : PoolEnv} {paths : List String} {n : Nat} {sink₀ : Sink}
    {s s' : Pool} (hinv : PoolInv env paths n sink₀ s)
    (h : stepMain s = some s') : PoolInv env paths n sink₀ s' := by
  unfold stepMain at h
  split_ifs at h with hc
  simp only [Option.some.injEq] at h
  subst h
  have hres : s.result = none := by
    cases hr : s.result with
    | none => rfl
    | some r => simp [hr] at hc
  refine ⟨hinv.paths_count, hinv.errs_count, ?_, hinv.cap, hinv.closed_iff, hinv.done_workers,
    hinv.done_count, hinv.workers_len, ?_, hinv.sink_eq, hinv.walker_err⟩
  · intro hr
    cases hr
  · intro r hr
    simp only [Option.some.injEq] at hr
    refine ⟨by rw [← hinv.workers_len]; exact hc.2, ?_⟩
    rw [← hr, hinv.buffer hres]

theorem poolInv_step {env : PoolEnv} {paths : List String} {n : Nat} {sink₀ : Sink}
    {s s' : Pool} (a : Actor) (hinv : PoolInv env paths n sink₀ s) (hn : 0 < n)
    (h : poolStep env s a = some s') : PoolInv env paths n sink₀ s' := by
  cases a with
  | walker => exact poolInv_stepWalker hinv hn h
  | worker i => exact poolInv_stepWorker hinv hn h
  | main => exact poolInv_stepMain hinv h

theorem poolInv_exec {env : PoolEnv} {paths : List String} {n : Nat} {sink₀ : Sink}
    (sched : List Actor) {s : Pool} (hinv : PoolInv env paths n sink₀ s) (hn : 0 < n) :
    PoolInv env paths n sink₀ (exec env sched s) := by
  induction sched generalizing s with
  | nil => exact hinv
  | cons a rest ih =>
    show PoolInv env paths n sink₀ (exec env rest ((poolStep env s a).getD s))
    cases hstep : poolStep env s a with
    | none => exact ih hinv
    | some s' => exact ih (poolInv_step a hinv hn hstep)

/-- The invariant holds in every state a run reaches. -/
theorem poolInv_reachable (env : PoolEnv) (paths : List String) (n : Nat) (sink₀ : Sink)
    (hn : 0 < n) (sched : List Actor) :
    PoolInv env paths n sink₀ (exec env sched (startPool n paths sink₀)) :=
  poolInv_exec sched (poolInv_start env paths n sink₀) hn

/-! ## The worker pool: what a run can and cannot reach -/

theorem filterMap_eq_nil_of_all_exited {β : Type} (f : WorkerPc → Option β)
    (hf : f WorkerPc.exited = none) (ws : List WorkerPc)
    (h : ∀ pc ∈ ws, pc = WorkerPc.exited) : ws.filterMap f = [] := by
  rw [List.filterMap_eq_nil_iff]
  intro a ha
  rw [h a ha]
  exact hf

/-- When `CategorizeFiles` returns, every path the walk visited has been handed
to `processFile` exactly once, every error that arose has been sent into
`errChan`, and the value returned is the first error sent, or nil when there
was none. -/
theorem pool_returned {env : PoolEnv} {paths : List String} {n : Nat} {sink₀ : Sink}
    {s : Pool} (hinv : PoolInv env paths n sink₀ s) (hn : 0 < n) {r : Option String}
    (hr : s.result = some r) :
    s.processed.Perm paths ∧ s.reported.Perm (allErrors env paths) ∧
    r = s.reported.head? ∧
    s.sink = processAll (s.processed.map (fun p => (env.calls p, p))) sink₀ := by
  obtain ⟨hall, hwalker, hfc⟩ := final_of_returned hinv hn hr
  have hp : processingPaths s.workers = [] :=
    filterMap_eq_nil_of_all_exited heldPath rfl _ hall
  have he : reportingErrs s.workers = [] :=
    filterMap_eq_nil_of_all_exited heldErr rfl _ hall
  have hperm : s.processed.Perm paths := by
    rw [List.perm_iff_count]
    intro x
    have := hinv.paths_count x
    simpa [hp, hfc, hwalker, walkerTodo] using this
  refine ⟨hperm, ?_, (hinv.returned r hr).2, hinv.sink_eq⟩
  rw [List.perm_iff_count]
  intro e
  have := hinv.errs_count e
  simp only [he, hwalker, walkerReport, walkErrDue, List.count_nil, add_zero] at this
  unfold allErrors
  rw [List.count_append, ← (hperm.filterMap (fileErr env)).count_eq e]
  exact this

/-- The errors a run has to report do not fit into `errChan`: the run never
reaches the return of `CategorizeFiles`. -/
theorem pool_stuck_of_many_errors (env : PoolEnv) (paths : List String) (n : Nat)
    (sink₀ : Sink) (hn : 0 < n) (hmany : errCap < (allErrors env paths).length)
    (sched : List Actor) : (exec env sched (startPool n paths sink₀)).result = none := by
  have hinv := poolInv_reachable env paths n sink₀ hn sched
  cases hr : (exec env sched (startPool n paths sink₀)).result with
  | none => rfl
  | some r =>
    have hperm := (pool_returned hinv hn hr).2.1
    have := hperm.length_eq
    have := hinv.cap
    omega

theorem length_filterMap_eq_of_all {l : List String} {f : String → Option String}
    (h : ∀ p ∈ l, (f p).isSome = true) : (l.filterMap f).length = l.length := by
  induction l with
  | nil => rfl
  | cons a l ih =>
    have ha := h a (by simp)
    rw [Option.isSome_iff_exists] at ha
    obtain ⟨b, hb⟩ := ha
    rw [List.filterMap_cons, hb]
    simp [ih (fun p hp => h p (by simp [hp]))]

/-- When the walk is complete and every file fails, a run hands at most
`errCap` plus the number of workers paths to `processFile`. -/
theorem pool_processed_le_of_all_fail (env : PoolEnv) (paths : List String) (n : Nat)
    (sink₀ : Sink) (hn : 0 < n) (hwalk : env.walkErr = none)
    (hfail : ∀ p, (fileErr env p).isSome = true) (sched : List Actor) :
    (exec env sched (startPool n paths sink₀)).processed.length ≤ errCap + n := by
  have hinv := poolInv_reachable env paths n sink₀ hn sched
  generalize exec env sched (startPool n paths sink₀) = s at hinv
  have hperm : (s.reported ++ reportingErrs s.workers ++ walkerReport s.walker).Perm
      (s.processed.filterMap (fileErr env) ++ walkErrDue env s.walker) := by
    rw [List.perm_iff_count]
    intro e
    have := hinv.errs_count e
    simp only [List.count_append]
    omega
  have hlen := hperm.length_eq
  have hdue : walkErrDue env s.walker = [] := by
    cases s.walker <;> simp [walkErrDue, hwalk]
  rw [hdue, List.append_nil, length_filterMap_eq_of_all (fun p _ => hfail p)] at hlen
  have h1 : (reportingErrs s.workers).length ≤ n := by
    rw [← hinv.workers_len]
    exact List.length_filterMap_le _ _
  have h2 : (walkerReport s.walker).length = 0 := by
    cases hw : s.walker with
    | reporting e =>
      have := hinv.walker_err e hw
      rw [hwalk] at this
      cases this
    | _ => rfl
  have h3 := hinv.cap
  simp only [List.length_append] at hlen
  omega

/-! ## The worker pool: every step makes progress -/

theorem sum_map_set (ws : List WorkerPc) (i : Nat) (pc pc' : WorkerPc) (h : ws[i]? = some pc) :
    ((ws.set i pc').map workerWork).sum + workerWork pc
      = (ws.map workerWork).sum + workerWork pc' := by
  induction ws generalizing i with
  | nil => simp at h
  | cons w ws ih =>
    cases i with
    | zero =>
      simp only [List.getElem?_cons_zero, Option.some.injEq] at h
      subst h
      simp only [List.set_cons_zero, List.map_cons, List.sum_cons]
      omega
    | succ j =>
      simp only [List.getElem?_cons_succ] at h
      have := ih j h
      simp only [List.set_cons_succ, List.map_cons, List.sum_cons]
      omega

/-- Every step of a goroutine lowers the measure: no run goes on for ever. -/
theorem poolMeasure_step (env : PoolEnv) (s s' : Pool) (a : Actor)
    (h : poolStep env s a = some s') : poolMeasure s' < poolMeasure s := by
  cases a with
  | walker =>
    simp only [poolStep, stepWalker] at h
    cases hw : s.walker with
    | walking todo =>
      cases todo with
      | nil =>
        simp only [hw, Option.some.injEq] at h
        subst h
        cases env.walkErr <;> simp [poolMeasure, walkerWork, hw]
      | cons p rest =>
        simp only [hw] at h
        split_ifs at h
        simp only [Option.some.injEq] at h
        subst h
        simp only [poolMeasure, walkerWork, hw, List.length_append, List.length_cons,
          List.length_nil]
        omega
    | reporting e =>
      simp only [hw] at h
      split_ifs at h
      simp only [Option.some.injEq] at h
      subst h
      simp [poolMeasure, walkerWork, hw]
    | closing =>
      simp only [hw, Option.some.injEq] at h
      subst h
      simp [poolMeasure, walkerWork, hw]
    | exited => simp [hw] at h
  | worker i =>
    simp only [poolStep, stepWorker] at h
    cases hi : s.workers[i]? with
    | none => simp [hi] at h
    | some pc =>
      have hS := fun pc' => sum_map_set s.workers i pc pc' hi
      cases pc with
      | receiving =>
        simp only [hi] at h
        cases hfc : s.filesChan with
        | nil =>
          simp only [hfc] at h
          split_ifs at h
          simp only [Option.some.injEq] at h
          subst h
          have := hS WorkerPc.finishing
          simp only [poolMeasure, workerWork, hfc] at this ⊢
          omega
        | cons p rest =>
          simp only [hfc, Option.some.injEq] at h
          subst h
          have := hS (WorkerPc.processing p)
          simp only [poolMeasure, workerWork, hfc, List.length_cons] at this ⊢
          omega
      | processing p =>
        simp only [hi, Option.some.injEq] at h
        subst h
        have := hS (afterProcess (processFile (env.calls p) p s.sink).err)
        have hle : workerWork (afterProcess (processFile (env.calls p) p s.sink).err) ≤ 3 := by
          cases (processFile (env.calls p) p s.sink).err <;> simp [afterProcess, workerWork]
        generalize workerWork (afterProcess (processFile (env.calls p) p s.sink).err) = k
          at this hle
        simp only [poolMeasure, workerWork] at this ⊢
        omega
      | reporting e =>
        simp only [hi] at h
        split_ifs at h
        simp only [Option.some.injEq] at h
        subst h
        have := hS WorkerPc.receiving
        simp only [poolMeasure, workerWork] at this ⊢
        omega
      | finishing =>
        simp only [hi] at h
        split_ifs at h
        simp only [Option.some.injEq] at h
        subst h
        have := hS WorkerPc.exited
        simp only [poolMeasure, workerWork] at this ⊢
        omega
      | exited => simp [hi] at h
  | main =>
    simp only [poolStep, stepMain] at h
    split_ifs at h with hc
    simp only [Option.some.injEq] at h
    subst h
    simp [poolMeasure, hc.1]

/-! ## The worker pool: no deadlock while the errors fit into `errChan` -/

theorem exists_not_exited (ws : List WorkerPc) (h : exitedCount ws ≠ ws.length) :
    ∃ (i : Nat) (pc : WorkerPc), ws[i]? = some pc ∧ pc ≠ WorkerPc.exited := by
  by_contra hno
  apply h
  have hall : ∀ pc ∈ ws, pc = WorkerPc.exited := by
    intro pc hpc
    by_contra hne
    obtain ⟨i, hi⟩ := List.getElem?_of_mem hpc
    exact hno ⟨i, pc, hi, hne⟩
  clear h hno
  induction ws with
  | nil => rfl
  | cons w ws ih =>
    have hw := hall w (by simp)
    subst hw
    have := ih (fun pc hpc => hall pc (by simp [hpc]))
    unfold exitedCount at this ⊢
    simp [List.filterMap_cons, hasExited, this]

/-- The errors sent or held by blocked senders are among the errors the run
has to report. -/
theorem pending_errors_le {env : PoolEnv} {paths : List String} {n : Nat} {sink₀ : Sink}
    {s : Pool} (hinv : PoolInv env paths n sink₀ s) :
    s.reported.length + (reportingErrs s.workers).length + (walkerReport s.walker).length
      ≤ (allErrors env paths).length := by
  have hperm : (s.reported ++ reportingErrs s.workers ++ walkerReport s.walker).Perm
      (s.processed.filterMap (fileErr env) ++ walkErrDue env s.walker) := by
    rw [List.perm_iff_count]
    intro e
    have := hinv.errs_count e
    simp only [List.count_append]
    omega
  have hlen := hperm.length_eq
  have hsub : List.Subperm s.processed paths := by
    rw [List.subperm_ext_iff]
    intro x _
    have := hinv.paths_count x
    omega
  obtain ⟨l, hl, hsl⟩ := hsub
  have h1 : (s.processed.filterMap (fileErr env)).length
      ≤ (paths.filterMap (fileErr env)).length := by
    rw [← (hl.filterMap (fileErr env)).length_eq]
    exact (hsl.filterMap (fileErr env)).length_le
  have h2 : (walkErrDue env s.walker).length ≤ env.walkErr.toList.length := by
    cases s.walker <;> simp [walkErrDue]
  unfold allErrors
  simp only [List.length_append] at hlen ⊢
  omega

theorem reportingErrs_pos {ws : List WorkerPc} {i : Nat} {e : String}
    (h : ws[i]? = some (WorkerPc.reporting e)) : 0 < (reportingErrs ws).length := by
  apply List.length_pos_of_mem (a := e)
  unfold reportingErrs
  rw [List.mem_filterMap]
  exact ⟨_, mem_of_getElem?_eq h, rfl⟩

/-- While `CategorizeFiles` has not returned and the errors of the run fit into
`errChan`, some goroutine can move. -/
theorem pool_progress {env : PoolEnv} {paths : List String} {n : Nat} {sink₀ : Sink}
    {s : Pool} (hinv : PoolInv env paths n sink₀ s)
    (hfew : (allErrors env paths).length ≤ errCap) (hres : s.result = none) :
    ∃ a, (poolStep env s a).isSome = true := by
  have hpend := pending_errors_le hinv
  have hbuf := hinv.buffer hres
  by_cases hdone : s.doneCount = s.workers.length
  · exact ⟨Actor.main, by simp [poolStep, stepMain, hres, hdone]⟩
  · have hne : exitedCount s.workers ≠ s.workers.length := by
      rw [← hinv.done_count]; exact hdone
    obtain ⟨i, pc, hi, hpc⟩ := exists_not_exited s.workers hne
    have hlt : s.doneCount < s.workers.length := by
      have := exitedCount_le s.workers
      rw [← hinv.done_count] at this
      omega
    cases pc with
    | exited => exact absurd rfl hpc
    | processing p => exact ⟨Actor.worker i, by simp [poolStep, stepWorker, hi]⟩
    | finishing => exact ⟨Actor.worker i, by simp [poolStep, stepWorker, hi, hlt]⟩
    | reporting e =>
      have := reportingErrs_pos hi
      have hcap : s.errChan.length < errCap := by rw [hbuf]; omega
      exact ⟨Actor.worker i, by simp [poolStep, stepWorker, hi, hcap]⟩
    | receiving =>
      cases hfc : s.filesChan with
      | cons p rest => exact ⟨Actor.worker i, by simp [poolStep, stepWorker, hi, hfc]⟩
      | nil =>
        cases hc : s.closed with
        | true => exact ⟨Actor.worker i, by simp [poolStep, stepWorker, hi, hfc, hc]⟩
        | false =>
          cases hw : s.walker with
          | walking todo =>
            cases todo with
            | nil => exact ⟨Actor.walker, by simp [poolStep, stepWalker, hw]⟩
            | cons p rest =>
              exact ⟨Actor.walker, by simp [poolStep, stepWalker, hw, hfc, filesCap]⟩
          | reporting e =>
            have hcap : s.errChan.length < errCap := by
              rw [hbuf]
              simp only [hw, walkerReport, List.length_singleton] at hpend
              omega
            exact ⟨Actor.walker, by simp [poolStep, stepWalker, hw, hcap]⟩
          | closing => exact ⟨Actor.walker, by simp [poolStep, stepWalker, hw]⟩
          | exited =>
            have := hinv.closed_iff.2 hw
            rw [hc] at this
            cases this

/-- From every state of a run whose errors fit into `errChan`, the run can be
continued until `CategorizeFiles` returns. -/
theorem pool_can_return {env : PoolEnv} {paths : List String} {n : Nat} {sink₀ : Sink}
    (hn : 0 < n) (hfew : (allErrors env paths).length ≤ errCap) (k : Nat) :
    ∀ s : Pool, PoolInv env paths n sink₀ s → poolMeasure s ≤ k →
      ∃ more : List Actor, (exec env more s).result ≠ none := by
  induction k with
  | zero =>
    intro s _ hk
    refine ⟨[], ?_⟩
    intro hres
    have : (exec env [] s).result = s.result := rfl
    rw [this] at hres
    simp [poolMeasure, hres] at hk
  | succ k ih =>
    intro s hinv hk
    cases hres : s.result with
    | some r =>
      refine ⟨[], ?_⟩
      show s.result ≠ none
      rw [hres]
      simp
    | none =>
      obtain ⟨a, ha⟩ := pool_progress hinv hfew hres
      obtain ⟨s', hstep⟩ := Option.isSome_iff_exists.1 ha
      have hlt := poolMeasure_step env s s' a hstep
      obtain ⟨more, hmore⟩ := ih s' (poolInv_step a hinv hn hstep) (by omega)
      refine ⟨a :: more, ?_⟩
      show (exec env more ((poolStep env s a).getD s)).result ≠ none
      rw [hstep]
      exact hmore

theorem exec_append (env : PoolEnv) (sched more : List Actor) (s : Pool) :
    exec env (sched ++ more) s = exec env more (exec env sched s) := by
  simp [exec, List.foldl_append]

/-- With at least one worker and at most `errCap` errors to report, every run
can be continued to the return of `CategorizeFiles`, which then has handed every
path to `processFile` exactly once and returns the first error sent, or nil
when no error arose. -/
theorem pool_terminates (env : PoolEnv) (paths : List String) (n : Nat) (sink₀ : Sink)
    (hn : 0 < n) (hfew : (allErrors env paths).length ≤ errCap) (sched : List Actor) :
    ∃ more : List Actor, ∃ r : Option String,
      (exec env (sched ++ more) (startPool n paths sink₀)).result = some r ∧
      (exec env (sched ++ more) (startPool n paths sink₀)).processed.Perm paths ∧
      (r = none ↔ allErrors env paths = []) ∧
      r = (exec env (sched ++ more) (startPool n paths sink₀)).reported.head? := by
  have hinv := poolInv_reachable env paths n sink₀ hn sched
  obtain ⟨more, hmore⟩ := pool_can_return hn hfew _ _ hinv (le_refl _)
  refine ⟨more, ?_⟩
  rw [exec_append]
  cases hr : (exec env more (exec env sched (startPool n paths sink₀))).result with
  | none => exact absurd hr hmore
  | some r =>
    have hinv' : PoolInv env paths n sink₀
        (exec env more (exec env sched (startPool n paths sink₀))) := poolInv_exec more hinv hn
    obtain ⟨h1, h2, h3, -⟩ := pool_returned hinv' hn hr
    refine ⟨r, rfl, h1, ?_, h3⟩
    rw [h3]
    constructor
    · intro hnone
      have : (exec env more (exec env sched (startPool n paths sink₀))).reported = [] := by
        cases hrep : (exec env more (exec env sched (startPool n paths sink₀))).reported with
        | nil => rfl
        | cons a l => rw [hrep] at hnone; cases hnone
      rw [this] at h2
      exact h2.symm.eq_nil
    · intro hnil
      rw [hnil] at h2
      rw [h2.eq_nil]
      rfl

/-! ## The worker pool: the claims -/

/-- When the walk is complete and no call of `processFile` fails, a run that
has returned from the empty sink has stored one record for each path, in the
order of the calls. -/
theorem pool_records {env : PoolEnv} {paths : List String} {n : Nat} {s : Pool}
    (hinv : PoolInv env paths n emptySink s) (hn : 0 < n) {r : Option String}
    (hr : s.result = some r) (hok : ∀ p, (env.calls p).allOk = true) :
    s.sink.store.rows.map (fun f => f.Path) = s.processed ∧
    (s.sink.store.rows.map (fun f => f.Path)).Perm paths ∧
    s.sink.store.rows.length = paths.length := by
  obtain ⟨hperm, -, -, hsink⟩ := pool_returned hinv hn hr
  obtain ⟨added, a1, -, a3, -⟩ :=
    processAll_rows (s.processed.map (fun p => (env.calls p, p))) emptySink
      (by
        intro cp hcp
        rw [List.mem_map] at hcp
        obtain ⟨p, -, rfl⟩ := hcp
        exact hok p)
  have hrows : s.sink.store.rows = added := by
    rw [hsink, a1]
    rfl
  have hpaths : s.sink.store.rows.map (fun f => f.Path) = s.processed := by
    rw [hrows, a3, List.map_map]
    simp [Function.comp_def]
  refine ⟨hpaths, hpaths ▸ hperm, ?_⟩
  rw [← hperm.length_eq, ← hpaths, List.length_map]

set_option maxRecDepth 100000 in
theorem stuckTwelve_eval :
    stuckTwelve.processed = twelvePaths.take 11 ∧
    stuckTwelve.filesChan = ["/r/12"] ∧
    stuckTwelve.errChan.length = 10 ∧
    stuckTwelve.workers
      = [WorkerPc.reporting "failed to stat file /r/11: no such file or directory"] ∧
    (poolStep allFail stuckTwelve Actor.walker).isNone = true ∧
    (poolStep allFail stuckTwelve (Actor.worker 0)).isNone = true ∧
    (poolStep allFail stuckTwelve Actor.main).isNone = true := by
  decide

/-- Claim C14, at the failing input.  One worker, a complete walk of twelve
files, every call of `processFile` failing: whatever the schedule, at most
eleven of the twelve paths are handed to `processFile` and `CategorizeFiles`
does not return; under the round-robin schedule the run stops with `/r/12`
waiting in `filesChan`, the worker blocked at `errChan <- err` and no goroutine
able to move.  In every run that returns, each path has been handed to
`processFile` exactly once, and with no failing call from the empty store the
run has stored one record per path. -/
theorem pool_leaves_path_unprocessed :
    twelvePaths.length = 12 ∧
    (∀ sched : List Actor,
      (exec allFail sched (startPool 1 twelvePaths emptySink)).processed.length ≤ 11 ∧
      (exec allFail sched (startPool 1 twelvePaths emptySink)).result = none) ∧
    stuckTwelve.processed = twelvePaths.take 11 ∧
    stuckTwelve.filesChan = ["/r/12"] ∧
    stuckTwelve.errChan.length = 10 ∧
    stuckTwelve.workers
      = [WorkerPc.reporting "failed to stat file /r/11: no such file or directory"] ∧
    (poolStep allFail stuckTwelve Actor.walker).isNone = true ∧
    (poolStep allFail stuckTwelve (Actor.worker 0)).isNone = true ∧
    (poolStep allFail stuckTwelve Actor.main).isNone = true ∧
    (∀ (env : PoolEnv) (paths : List String) (n : Nat) (sink₀ : Sink) (sched : List Actor)
      (r : Option String), 0 < n →
      (exec env sched (startPool n paths sink₀)).result = some r →
        (exec env sched (startPool n paths sink₀)).processed.Perm paths) ∧
    (∀ (env : PoolEnv) (paths : List String) (n : Nat) (sched : List Actor)
      (r : Option String), 0 < n → (∀ p, (env.calls p).allOk = true) →
      (exec env sched (startPool n paths emptySink)).result = some r →
        ((exec env sched (startPool n paths emptySink)).sink.store.rows.map
          (fun f => f.Path)).Perm paths ∧
        (exec env sched (startPool n paths emptySink)).sink.store.rows.length = paths.length) := by
  obtain ⟨e1, e2, e3, e4, e5, e6, e7⟩ := stuckTwelve_eval
  refine ⟨by decide, fun sched => ⟨?_, ?_⟩, e1, e2, e3, e4, e5, e6, e7, ?_, ?_⟩
  · exact pool_processed_le_of_all_fail allFail twelvePaths 1 emptySink (by decide) rfl
      (fun p => rfl) sched
  · exact pool_stuck_of_many_errors allFail twelvePaths 1 emptySink (by decide) (by decide) sched
  · intro env paths n sink₀ sched r hn hr
    exact (pool_returned (poolInv_reachable env paths n sink₀ hn sched) hn hr).1
  · intro env paths n sched r hn hok hr
    exact (pool_records (poolInv_reachable env paths n emptySink hn sched) hn hr hok).2

theorem head?_eq_none_iff_of_perm {l l' : List String} (h : l.Perm l') :
    l.head? = none ↔ l' = [] := by
  constructor
  · intro hnone
    have : l = [] := by
      cases l with
      | nil => rfl
      | cons a t => cases hnone
    rw [this] at h
    exact h.symm.eq_nil
  · intro hnil
    rw [hnil] at h
    rw [h.eq_nil]
    rfl

set_option maxRecDepth 100000 in
theorem stuckEleven_eval :
    stuckEleven.processed = twelvePaths.take 11 ∧
    stuckEleven.filesChan = [] ∧
    stuckEleven.closed = true ∧
    stuckEleven.errChan.length = 10 ∧
    stuckEleven.workers
      = [WorkerPc.reporting "failed to stat file /r/11: no such file or directory"] ∧
    stuckEleven.doneCount = 0 ∧
    (poolStep allFail stuckEleven Actor.walker).isNone = true ∧
    (poolStep allFail stuckEleven (Actor.worker 0)).isNone = true ∧
    (poolStep allFail stuckEleven Actor.main).isNone = true := by
  decide

/-- Claim C15, at the failing input.  Two workers, ten files that all fail and
a walk that ends with an error, eleven errors in all: whatever the schedule,
`CategorizeFiles` does not return.  In every run that does return, the value is
the first error sent into `errChan`, and it is nil exactly when no call of
`processFile` and no step of the walk returned an error; and every run with at
most ten errors can be continued to its return. -/
theorem pool_never_returns_eleven_errors :
    (allErrors allFailWalkErr (twelvePaths.take 10)).length = 11 ∧
    (∀ sched : List Actor,
      (exec allFailWalkErr sched (startPool 2 (twelvePaths.take 10) emptySink)).result = none) ∧
    (∀ (env : PoolEnv) (paths : List String) (n : Nat) (sink₀ : Sink) (sched : List Actor)
      (r : Option String), 0 < n →
      (exec env sched (startPool n paths sink₀)).result = some r →
        r = (exec env sched (startPool n paths sink₀)).reported.head? ∧
        (exec env sched (startPool n paths sink₀)).reported.Perm (allErrors env paths) ∧
        (r = none ↔ allErrors env paths = [])) ∧
    (∀ (env : PoolEnv) (paths : List String) (n : Nat) (sink₀ : Sink) (sched : List Actor),
      0 < n → (allErrors env paths).length ≤ errCap →
        ∃ more : List Actor,
          (exec env (sched ++ more) (startPool n paths sink₀)).result ≠ none) := by
  refine ⟨by decide, fun sched => ?_, ?_, ?_⟩
  · exact pool_stuck_of_many_errors allFailWalkErr (twelvePaths.take 10) 2 emptySink (by decide)
      (by decide) sched
  · intro env paths n sink₀ sched r hn hr
    obtain ⟨-, h2, h3, -⟩ := pool_returned (poolInv_reachable env paths n sink₀ hn sched) hn hr
    exact ⟨h3, h2, by rw [h3]; exact head?_eq_none_iff_of_perm h2⟩
  · intro env paths n sink₀ sched hn hfew
    obtain ⟨more, r, hr, -⟩ := pool_terminates env paths n sink₀ hn hfew sched
    exact ⟨more, by rw [hr]; simp⟩

/-- Claim C16, at the failing input.  One worker and eleven files that all
fail: whatever the schedule, `CategorizeFiles` does not return.  Under the
round-robin schedule the walk completes, `filesChan` is closed and drained, ten
errors fill `errChan`, and the worker stays blocked at `errChan <- err` with
the eleventh, so that the main goroutine waits for `doneChan` for ever; no
error is dropped.  The same holds for any number of workers whenever more than
ten errors are to be reported. -/
theorem pool_blocks_on_eleventh_error :
    (∀ sched : List Actor,
      (exec allFail sched (startPool 1 (twelvePaths.take 11) emptySink)).result = none) ∧
    stuckEleven.processed = twelvePaths.take 11 ∧
    stuckEleven.filesChan = [] ∧
    stuckEleven.closed = true ∧
    stuckEleven.errChan.length = 10 ∧
    stuckEleven.workers
      = [WorkerPc.reporting "failed to stat file /r/11: no such file or directory"] ∧
    stuckEleven.doneCount = 0 ∧
    (poolStep allFail stuckEleven Actor.walker).isNone = true ∧
    (poolStep allFail stuckEleven (Actor.worker 0)).isNone = true ∧
    (poolStep allFail stuckEleven Actor.main).isNone = true ∧
    (∀ (env : PoolEnv) (paths : List String) (n : Nat) (sink₀ : Sink) (sched : List Actor),
      0 < n → errCap < (allErrors env paths).length →
        (exec env sched (startPool n paths sink₀)).result = none) := by
  obtain ⟨e1, e2, e3, e4, e5, e6, e7, e8, e9⟩ := stuckEleven_eval
  refine ⟨fun sched => ?_, e1, e2, e3, e4, e5, e6, e7, e8, e9, ?_⟩
  · exact pool_stuck_of_many_errors allFail (twelvePaths.take 11) 1 emptySink (by decide)
      (by decide) sched
  · intro env paths n sink₀ sched hn hmany
    exact pool_stuck_of_many_errors env paths n sink₀ hn hmany sched

end SmartDir
